import Mathlib

/-!
# Verification of the cipher-agent-sdk coordination core

Shallow embedding, in Lean 4, of the parts of the `cipher-agent-sdk`
JavaScript source that the specification's claims are about:

* the deposit-code codec (`src/lib/deposit-code.js`),
* the persistent deposit book (`src/lib/storage.js`, async revision),
* the withdraw submission section of `CipherAgent.withdraw`
  (`src/lib/index.js`),
* the commitment function (`src/lib/proof.js`),
* the Kademlia XOR metric, k-buckets and `addNode` (`src/lib/dht.js`),
* the relayer per-IP sliding-window rate limiter (`src/lib/transactions.js`),
* the fixed-height Merkle engine (`src/unnamed/part_001`,
  `MerkleTreeBuilder`).

JavaScript numbers that hold byte values, ids, amounts and timestamps are
modelled as `Nat` (timestamps as `Int` where subtraction matters);
`BigInt` values are `Nat`; buffers are `List Nat` of byte values; thrown
exceptions are `Option`/`Except` failures.  The Poseidon hash is an
external capability of the core (spec §2, §4.A), so it enters every
definition as an abstract function argument.
-/

namespace Cipher

/-! ## Big-endian byte arithmetic (Buffer read/write helpers)

`Buffer.writeUInt32BE` / `writeBigUInt64BE` write big-endian bytes;
`readUInt32BE` / `readBigUInt64BE` read them back.  `beBytes k n` is the
`k`-byte big-endian encoding of `n`, `beVal` the big-endian value of a
byte list. -/

def beBytes : Nat → Nat → List Nat
  | 0, _ => []
  | k + 1, n => (n / 256 ^ k) % 256 :: beBytes k (n % 256 ^ k)

def beVal (l : List Nat) : Nat :=
  l.foldl (fun acc b => 256 * acc + b) 0

/-! ## JavaScript `Number(BigInt)` conversion

`decodeDepositCode` returns `Number(buf.readBigUInt64BE(...))`.
`Number` converts a BigInt to the nearest IEEE-754 double
(ties-to-even), which for a u64 value means rounding to 53 significant
bits.  `jsNumberOfNat` is that rounding on non-negative integers. -/

def jsNumberOfNat (n : Nat) : Nat :=
  if n < 2 ^ 53 then n
  else
    let e := n.log2 - 52
    let q := n / 2 ^ e
    let r := n % 2 ^ e
    let half := 2 ^ (e - 1)
    if r < half then q * 2 ^ e
    else if half < r then (q + 1) * 2 ^ e
    else if q % 2 = 0 then q * 2 ^ e else (q + 1) * 2 ^ e

/-! ## Deposit-code codec (`src/lib/deposit-code.js`)

Layout for version 1 (77 bytes):
`version:u8=1 | nullifier:32 | secret:32 | chunkId:u32-BE | amount:u64-BE`,
then base58-encoded for transport.  base58 itself comes from the external
`bs58` package; it is passed in as an abstract transport pair
(`b58enc`, `b58dec`, where `b58dec` returns `none` when base58 rejects).
The byte-level layout below models the `Buffer` writes of
`encodeDepositCode` for 32-byte `secret`/`nullifier` inputs, which is the
domain the claim quantifies over. -/

structure DecodedCode where
  version : Nat
  secret : List Nat
  nullifier : List Nat
  chunkId : Nat
  amount : Nat
deriving Repr, DecidableEq

def V1_TOTAL_SIZE : Nat := 1 + 32 + 32 + 4 + 8

def encodeBytesV1 (secret nullifier : List Nat) (chunkId amount : Nat) : List Nat :=
  1 :: (nullifier ++ secret ++ beBytes 4 chunkId ++ beBytes 8 amount)

inductive CodecError where
  | tooShort
  | badLength
  | badVersion
  | badEncoding
deriving Repr, DecidableEq

def decodeBytesV1 (buf : List Nat) : Except CodecError DecodedCode :=
  if buf.length < 1 then .error .tooShort
  else
    let version := buf.headI
    if version = 1 then
      if buf.length ≠ V1_TOTAL_SIZE then .error .badLength
      else
        .ok { version := version
              secret := (buf.drop 33).take 32
              nullifier := (buf.drop 1).take 32
              chunkId := beVal ((buf.drop 65).take 4)
              amount := jsNumberOfNat (beVal ((buf.drop 69).take 8)) }
    else .error .badVersion

def encodeDepositCode (b58enc : List Nat → List Nat)
    (secret nullifier : List Nat) (chunkId amount : Nat) : List Nat :=
  b58enc (encodeBytesV1 secret nullifier chunkId amount)

def decodeDepositCode (b58dec : List Nat → Option (List Nat))
    (code : List Nat) : Except CodecError DecodedCode :=
  match b58dec code with
  | none => .error .badEncoding
  | some buf => decodeBytesV1 buf

/-! ## Deposit book (`src/lib/storage.js`, async revision)

A deposit record as created by `addDeposit(code, txId, {commitment, amount})`
plus the fields `markAsWithdrawn` may set.  `markAsWithdrawn(code, ref)`
looks up the first record whose `code` matches; if none matches it does
nothing (in particular `saveDeposits` is not called and no error is thrown);
otherwise it sets `withdrawn`, `withdrawTxId` and `withdrawTimestamp` on
that record and saves.  `new Date().toISOString()` is passed in as `now`. -/

structure DepositRec where
  code : String
  txId : String
  withdrawn : Bool
  timestamp : String
  commitment : String
  amount : Nat
  withdrawTxId : Option String
  withdrawTimestamp : Option String
deriving Repr, DecidableEq

def markAsWithdrawn : List DepositRec → String → String → String → List DepositRec
  | [], _, _, _ => []
  | d :: ds, code, ref, now =>
    if d.code = code then
      { d with withdrawn := true, withdrawTxId := some ref,
               withdrawTimestamp := some now } :: ds
    else d :: markAsWithdrawn ds code ref now

/-! ## Withdraw submission (`src/lib/index.js`, `CipherAgent.withdraw`)

Step 5 of the withdraw pipeline.  The agent first sets
`deposit.withdrawn = true` in RAM and calls
`storage.markAsWithdrawn(code, 'PENDING')` (the pre-mark), then POSTs to
the relayer with a 30 s `AbortController` timeout.  On HTTP 2xx it stores
the returned queue ID via `markAsWithdrawn(code, queueId)`.  On any
failure (network error, abort, or non-2xx) control enters
`catch (fetchErr)`, whose first statement is `clearTimeout(timeoutId)`;
`timeoutId` is declared with `const` inside the inner `try` block and is
not in scope there, so this statement raises
`ReferenceError: timeoutId is not defined` before the next lines
(`deposit.withdrawn = originalWithdrawnState` and the storage-rollback
TODO, which only logs a warning) can run; the outer catch rethrows.
`post = some queueId` models an HTTP 2xx response, `post = none` any
failure; the error carries the final state so it stays observable. -/

structure WithdrawSubState where
  ramWithdrawn : Bool
  store : List DepositRec
deriving Repr, DecidableEq

def relayerSubmitSection (st : WithdrawSubState) (depositCode : String)
    (post : Option String) (now now2 : String) :
    Except (String × WithdrawSubState) (WithdrawSubState × String) :=
  let st1 : WithdrawSubState :=
    { ramWithdrawn := true,
      store := markAsWithdrawn st.store depositCode "PENDING" now }
  match post with
  | some queueId =>
      .ok ({ st1 with store := markAsWithdrawn st1.store depositCode queueId now2 },
        queueId)
  | none =>
      .error ("timeoutId is not defined", st1)

/-! ## Commitment (`src/lib/proof.js`, `generateCommitment`)

`generateCommitment(secret, nullifier, amount)` converts each 32-byte
buffer to a BigInt via `BigInt('0x' + buf.toString('hex'))` and returns
`poseidon([nullifier, secret, amount])`.  The hex round trip is modelled
character-for-character; the arity-3 Poseidon is the external capability
`pos3`. -/

def hexDigitChar (n : Nat) : Char :=
  if n < 10 then Char.ofNat (48 + n) else Char.ofNat (87 + n)

def byteToHexChars (b : Nat) : List Char :=
  [hexDigitChar (b / 16), hexDigitChar (b % 16)]

def bufToHex (l : List Nat) : List Char :=
  l.foldr (fun b acc => byteToHexChars b ++ acc) []

def hexCharVal (c : Char) : Nat :=
  if 48 ≤ c.toNat ∧ c.toNat ≤ 57 then c.toNat - 48
  else if 97 ≤ c.toNat ∧ c.toNat ≤ 102 then c.toNat - 87
  else if 65 ≤ c.toNat ∧ c.toNat ≤ 70 then c.toNat - 55
  else 0

def parseHexNat (cs : List Char) : Nat :=
  cs.foldl (fun acc c => 16 * acc + hexCharVal c) 0

def generateCommitment (pos3 : Nat → Nat → Nat → Nat)
    (secret nullifier : List Nat) (amount : Nat) : Nat :=
  let secretBigInt := parseHexNat (bufToHex secret)
  let nullifierBigInt := parseHexNat (bufToHex nullifier)
  pos3 nullifierBigInt secretBigInt amount

/-! ## Kademlia DHT (`src/lib/dht.js`)

Node IDs are 32-byte buffers.  `distance` XORs the buffers byte by byte;
`bucketIndex` scans bytes from the front and bits from bit 7 down, and for
the first set bit at byte `i`, bit `j`, returns
`(ID_LENGTH*8 - 1) - (i*8 + (7 - j))`, and `0` when the distance is zero.
`KBucket.add` moves an existing entry (by id) to the tail, appends when the
bucket has fewer than `k = K = 20` entries, and otherwise ignores the node.
`addNode` refuses the node's own id and otherwise adds to the bucket at
`bucketIndex (distance self id)`. -/

def DHT_K : Nat := 20

structure DHTPeer where
  id : List Nat
  host : String
  port : Nat
  lastSeen : Nat
deriving Repr, DecidableEq

def distance (id1 id2 : List Nat) : List Nat :=
  List.zipWith (fun a b => a ^^^ b) id1 id2

def highBitFrom (b : Nat) : Nat → Option Nat
  | 0 => if b &&& (1 <<< 0) ≠ 0 then some 0 else none
  | j + 1 => if b &&& (1 <<< (j + 1)) ≠ 0 then some (j + 1) else highBitFrom b j

def bucketIndexAux (total : Nat) : List Nat → Nat → Nat
  | [], _ => 0
  | b :: rest, i =>
    match highBitFrom b 7 with
    | some j => (total * 8 - 1) - (i * 8 + (7 - j))
    | none => bucketIndexAux total rest (i + 1)

def bucketIndex (dist : List Nat) : Nat := bucketIndexAux 32 dist 0

def kbucketAdd (k : Nat) (nodes : List DHTPeer) (node : DHTPeer) : List DHTPeer :=
  if nodes.any (fun m => m.id == node.id) then
    (nodes.eraseP (fun m => m.id == node.id)) ++ [node]
  else if nodes.length < k then nodes ++ [node]
  else nodes

structure RoutingState where
  selfId : List Nat
  buckets : Nat → List DHTPeer

def addNode (st : RoutingState) (node : DHTPeer) : RoutingState :=
  if node.id == st.selfId then st
  else
    let idx := bucketIndex (distance st.selfId node.id)
    { st with
      buckets := fun i =>
        if i = idx then kbucketAdd DHT_K (st.buckets idx) node else st.buckets i }

/-! ## Relayer rate limiter (`src/lib/transactions.js`, `_checkRateLimit`)

Per-IP sliding window: `requestCounts` maps an IP to the list of its
request timestamps.  A check at time `now` keeps only timestamps
`ts > now - window`; when at least `rateLimit.requests` remain the request
is rejected (and the map is left as is), otherwise `now` is appended and
stored.  When the map exceeds 1,000 entries, IPs whose every timestamp is
outside the window are evicted.  `handleSubmit` answers HTTP 429 when the
check fails.  The map is an association list in insertion order, matching
a JavaScript `Map`. -/

abbrev RateMap : Type := List (String × List Int)

def setEntry (counts : RateMap) (ip : String) (v : List Int) : RateMap :=
  counts.map (fun e => if e.1 == ip then (ip, v) else e)

def checkRateLimit (requests : Nat) (window : Int)
    (counts : RateMap) (ip : String) (now : Int) : Bool × RateMap :=
  let windowStart := now - window
  let counts0 : RateMap :=
    if counts.any (fun e => e.1 == ip) then counts else counts ++ [(ip, [])]
  let timestamps := ((counts0.find? (fun e => e.1 == ip)).map Prod.snd).getD []
  let valid := timestamps.filter (fun ts => decide (windowStart < ts))
  if requests ≤ valid.length then (false, counts0)
  else
    let counts1 := setEntry counts0 ip (valid ++ [now])
    let counts2 :=
      if 1000 < counts1.length then
        counts1.filter (fun e => !(e.2.all (fun ts => decide (ts ≤ windowStart))))
      else counts1
    (true, counts2)

def handleSubmitGate (requests : Nat) (window : Int)
    (counts : RateMap) (ip : String) (now : Int) : Except (Nat × RateMap) RateMap :=
  match checkRateLimit requests window counts ip now with
  | (false, counts') => .error (429, counts')
  | (true, counts') => .ok counts'

def runRequests (requests : Nat) (window : Int) (ip : String) :
    List Int → RateMap → List Bool × RateMap
  | [], counts => ([], counts)
  | t :: ts, counts =>
    let step := checkRateLimit requests window counts ip t
    let rest := runRequests requests window ip ts step.2
    (step.1 :: rest.1, rest.2)

/-! ## Merkle engine (`src/unnamed/part_001`, `MerkleTreeBuilder`)

The engine keeps, per chunk, `{ leaves, tree, root }` where `tree` is a
flat array of `2^(H+1) - 1` BigInt slots initialised to `0`: level 0
(leaves) occupies indices `[0, 2^H)`, level `l` starts at offset
`off l = sum of the sizes of levels below`, and the root is the last slot.
`TREE_HEIGHT = 20`, `LEAVES_CAPACITY = 2^20`.  The array is modelled as a
total function `Nat -> Nat` (unwritten slots read `0`, like the
`.fill(ZERO)` initialisation); the Poseidon pair hash is the abstract
argument `pos`.  The `ZERO_HASHES` constants of the source are the
Poseidon zero-subtree chain `ZERO_HASHES[0] = pos 0 0`,
`ZERO_HASHES[k+1] = pos ZERO_HASHES[k] ZERO_HASHES[k]` (the file bakes in
their decimal values, which must match the contract).  The source guards
that can never fire on these inputs (`parentIndex >= treeSize`, reads of
`undefined`) are noted where dropped; the capacity guard of `updateTree`
(`Leaf index exceeds capacity`) surfaces as the `none` branch. -/

def TREE_HEIGHT : Nat := 20

def LEAVES_CAPACITY : Nat := 2 ^ TREE_HEIGHT

def treeSize (h : Nat) : Nat := 2 ^ (h + 1) - 1

def zeroHash (pos : Nat → Nat → Nat) : Nat → Nat
  | 0 => pos 0 0
  | k + 1 => pos (zeroHash pos k) (zeroHash pos k)

def zeroSub (pos : Nat → Nat → Nat) (level : Nat) : Nat :=
  if level = 0 then 0 else zeroHash pos (level - 1)

abbrev Arr : Type := Nat → Nat

def wr (a : Arr) (i v : Nat) : Arr := fun x => if x = i then v else a x

def initLeaves (leaves : List Nat) : Arr :=
  fun x => if x < leaves.length then leaves.getD x 0 else 0

def buildPairStep (pos : Nat → Nat → Nat) (level nodeOffset count j : Nat) (a : Arr) : Arr :=
  wr a (nodeOffset + count + j)
    (pos (a (nodeOffset + 2 * j))
      (if 2 * j + 1 < count ∧ a (nodeOffset + 2 * j + 1) ≠ 0 then a (nodeOffset + 2 * j + 1)
       else zeroSub pos level))

def buildPairsLoop (pos : Nat → Nat → Nat) (level nodeOffset count : Nat) : Nat → Arr → Arr
  | 0, a => a
  | j + 1, a => buildPairStep pos level nodeOffset count j
      (buildPairsLoop pos level nodeOffset count j a)

def buildLevelsLoop (pos : Nat → Nat → Nat) : Nat → Nat → Nat → Nat → Arr → Arr
  | 0, _, _, _, a => a
  | fuel + 1, level, nodeOffset, count, a =>
    buildLevelsLoop pos fuel (level + 1) (nodeOffset + count) (count / 2)
      (buildPairsLoop pos level nodeOffset count (count / 2) a)

def buildArr (pos : Nat → Nat → Nat) (h : Nat) (leaves : List Nat) : Arr :=
  buildLevelsLoop pos h 0 0 (2 ^ h) (initLeaves leaves)

structure TreeState where
  leaves : List Nat
  tree : Arr
  root : Nat

def buildTree (pos : Nat → Nat → Nat) (h : Nat) (leaves : List Nat) : Option TreeState :=
  if leaves.length > 2 ^ h then none
  else
    let a := buildArr pos h leaves
    some ⟨leaves, a, a (treeSize h - 1)⟩

def updatePathLoop (pos : Nat → Nat → Nat) (h : Nat) :
    Nat → Nat → Nat → Nat → Arr → Arr
  | 0, _, _, _, a => a
  | fuel + 1, level, cur, levelOffset, a =>
    let count := 2 ^ (h - level)
    let parentOffset := levelOffset + count
    let parent := parentOffset + cur / 2
    let sibInLevel := if cur % 2 = 1 then cur - 1 else cur + 1
    let left := if cur % 2 = 1 then a (levelOffset + sibInLevel) else a (levelOffset + cur)
    let right :=
      if cur % 2 = 1 then a (levelOffset + cur)
      else if sibInLevel < count ∧ a (levelOffset + sibInLevel) ≠ 0 then
        a (levelOffset + sibInLevel)
      else zeroSub pos level
    updatePathLoop pos h fuel (level + 1) (cur / 2) parentOffset
      (wr a parent (pos left right))

def insertLeavesLoop (pos : Nat → Nat → Nat) (h : Nat) (newLeaves : List Nat) :
    Nat → Nat → Arr → Arr
  | _, 0, a => a
  | i, fuel + 1, a =>
    insertLeavesLoop pos h newLeaves (i + 1) fuel
      (updatePathLoop pos h h 0 i 0 (wr a i (newLeaves.getD i 0)))

def updateTree (pos : Nat → Nat → Nat) (h : Nat) (st : TreeState)
    (newLeaves : List Nat) : Option TreeState :=
  if newLeaves.length = st.leaves.length then some st
  else if newLeaves.length < st.leaves.length then buildTree pos h newLeaves
  else if 2 ^ h < newLeaves.length then none
  else
    let a := insertLeavesLoop pos h newLeaves st.leaves.length
      (newLeaves.length - st.leaves.length) st.tree
    some ⟨newLeaves, a, a (treeSize h - 1)⟩

def iterUpdateAux (pos : Nat → Nat → Nat) (h : Nat) (leaves : List Nat) :
    Nat → Option TreeState
  | 0 => buildTree pos h []
  | k + 1 =>
    match iterUpdateAux pos h leaves k with
    | none => none
    | some st => updateTree pos h st (leaves.take (k + 1))

def iterUpdate (pos : Nat → Nat → Nat) (h : Nat) (leaves : List Nat) : Option TreeState :=
  iterUpdateAux pos h leaves leaves.length

def getMerklePathLoop (pos : Nat → Nat → Nat) (h : Nat) (a : Arr) :
    Nat → Nat → Nat → Nat → List Nat × List Nat
  | 0, _, _, _ => ([], [])
  | fuel + 1, level, cur, levelOffset =>
    let sibIndex := if cur % 2 = 1 then cur - 1 else cur + 1
    let levelStart := levelOffset
    let levelSize := 2 ^ (h - level)
    let nextOffset := levelOffset + levelSize
    let sibling :=
      if level = 0 then (if sibIndex < 2 ^ h then a sibIndex else 0)
      else if levelStart ≤ levelStart + sibIndex ∧ levelStart + sibIndex < nextOffset then
        a (levelStart + sibIndex)
      else zeroHash pos (level - 1)
    let rest := getMerklePathLoop pos h a fuel (level + 1) (cur / 2) nextOffset
    (sibling :: rest.1, (if cur % 2 = 1 then 1 else 0) :: rest.2)

def getMerklePath (pos : Nat → Nat → Nat) (h : Nat) (st : TreeState)
    (leafIndex : Nat) : List Nat × List Nat × Nat :=
  let pathL := getMerklePathLoop pos h st.tree h 0 leafIndex 0
  let rootSlot := st.tree (treeSize h - 1)
  (pathL.1, pathL.2, if rootSlot = 0 then zeroHash pos (h - 1) else rootSlot)

def foldPath (pos : Nat → Nat → Nat) : Nat → List (Nat × Nat) → Nat
  | acc, [] => acc
  | acc, (sib, bit) :: rest =>
    foldPath pos (if bit = 1 then pos sib acc else pos acc sib) rest

def nodeVal (pos : Nat → Nat → Nat) (leaves : List Nat) : Nat → Nat → Nat
  | 0, i => leaves.getD i 0
  | l + 1, i =>
    pos (nodeVal pos leaves l (2 * i))
      (if nodeVal pos leaves l (2 * i + 1) ≠ 0 then nodeVal pos leaves l (2 * i + 1)
       else zeroSub pos l)

def off (h : Nat) : Nat → Nat
  | 0 => 0
  | l + 1 => off h l + 2 ^ (h - l)

def Models (pos : Nat → Nat → Nat) (h : Nat) (st : TreeState) : Prop :=
  st.leaves.length ≤ 2 ^ h ∧
  (∀ l i, l ≤ h → i < 2 ^ (h - l) → st.tree (off h l + i) = nodeVal pos st.leaves l i) ∧
  st.root = nodeVal pos st.leaves h 0

theorem beVal_cons (b : Nat) (l : List Nat) :
    beVal (b :: l) = b * 256 ^ l.length + beVal l := by
  have aux : ∀ (l : List Nat) (a : Nat),
      l.foldl (fun acc b => 256 * acc + b) a =
        a * 256 ^ l.length + l.foldl (fun acc b => 256 * acc + b) 0 := by
    intro l
    induction l with
    | nil => intro a; simp
    | cons x xs ih =>
      intro a
      simp only [List.foldl_cons, List.length_cons]
      rw [ih (256 * a + x), ih (256 * 0 + x)]
      ring
  simp only [beVal, List.foldl_cons]
  have h := aux l (256 * 0 + b)
  rw [h]
  ring

theorem beVal_append (l₁ l₂ : List Nat) :
    beVal (l₁ ++ l₂) = beVal l₁ * 256 ^ l₂.length + beVal l₂ := by
  induction l₁ with
  | nil => simp [beVal]
  | cons x xs ih =>
    simp only [List.cons_append, beVal_cons, List.length_append, ih]
    ring

theorem beVal_lt (l : List Nat) (h : ∀ b ∈ l, b < 256) :
    beVal l < 256 ^ l.length := by
  induction l with
  | nil => simp [beVal]
  | cons x xs ih =>
    have hx : x < 256 := h x (List.mem_cons_self x xs)
    have hxs : beVal xs < 256 ^ xs.length :=
      ih (fun b hb => h b (List.mem_cons_of_mem x hb))
    rw [beVal_cons]
    calc x * 256 ^ xs.length + beVal xs
        < x * 256 ^ xs.length + 256 ^ xs.length := by omega
      _ = (x + 1) * 256 ^ xs.length := by ring
      _ ≤ 256 * 256 ^ xs.length := by
          exact Nat.mul_le_mul_right _ (by omega)
      _ = 256 ^ (x :: xs).length := by
          simp [List.length_cons, pow_succ, Nat.mul_comm]

theorem beBytes_length (k n : Nat) : (beBytes k n).length = k := by
  induction k generalizing n with
  | zero => rfl
  | succ k ih => simp [beBytes, ih]

theorem beBytes_lt (k n : Nat) : ∀ b ∈ beBytes k n, b < 256 := by
  induction k generalizing n with
  | zero => simp [beBytes]
  | succ k ih =>
    intro b hb
    simp only [beBytes, List.mem_cons] at hb
    rcases hb with h | h
    · subst h; exact Nat.mod_lt _ (by norm_num)
    · exact ih _ b h

theorem beVal_beBytes (k n : Nat) (h : n < 256 ^ k) :
    beVal (beBytes k n) = n := by
  induction k generalizing n with
  | zero => simp [beBytes, beVal]; omega
  | succ k ih =>
    have hrec : beVal (beBytes k (n % 256 ^ k)) = n % 256 ^ k :=
      ih _ (Nat.mod_lt _ (Nat.pos_pow_of_pos _ (by norm_num)))
    rw [beBytes, beVal_cons, beBytes_length, hrec]
    have hq : n / 256 ^ k < 256 := by
      have hlt : n < 256 ^ k * 256 := by
        have hp : (256 : Nat) ^ (k + 1) = 256 ^ k * 256 := pow_succ 256 k
        omega
      exact Nat.div_lt_of_lt_mul hlt
    rw [Nat.mod_eq_of_lt hq]
    exact Nat.div_add_mod' n (256 ^ k)

theorem jsNumberOfNat_eq_self {n : Nat} (h : n ≤ 2 ^ 53) : jsNumberOfNat n = n := by
  rcases Nat.lt_or_ge n (2 ^ 53) with hlt | hge
  · simp only [jsNumberOfNat]
    rw [if_pos hlt]
  · have hn : n = 2 ^ 53 := le_antisymm h hge
    subst hn
    have hlog : Nat.log2 (2 ^ 53) = 53 := by
      rw [Nat.log2_eq_log_two]
      exact Nat.log_pow (by norm_num) 53
    simp only [jsNumberOfNat, hlog]
    norm_num

theorem decodeBytesV1_encodeBytesV1 (secret nullifier : List Nat) (chunkId amount : Nat)
    (hs : secret.length = 32) (hn : nullifier.length = 32)
    (hc : chunkId < 2 ^ 32) (ha : amount < 2 ^ 64) :
    decodeBytesV1 (encodeBytesV1 secret nullifier chunkId amount) =
      .ok ⟨1, secret, nullifier, chunkId, jsNumberOfNat amount⟩ := by
  have hb4 : (beBytes 4 chunkId).length = 4 := beBytes_length 4 chunkId
  have hb8 : (beBytes 8 amount).length = 8 := beBytes_length 8 amount
  have hlen : (encodeBytesV1 secret nullifier chunkId amount).length = V1_TOTAL_SIZE := by
    simp [encodeBytesV1, V1_TOTAL_SIZE, hs, hn, hb4, hb8]
  have hdrop1 :
      (encodeBytesV1 secret nullifier chunkId amount).drop 1 =
        nullifier ++ (secret ++ (beBytes 4 chunkId ++ beBytes 8 amount)) := by
    simp [encodeBytesV1]
  have hdrop33 :
      (encodeBytesV1 secret nullifier chunkId amount).drop 33 =
        secret ++ (beBytes 4 chunkId ++ beBytes 8 amount) := by
    have : (encodeBytesV1 secret nullifier chunkId amount).drop 33 =
        ((encodeBytesV1 secret nullifier chunkId amount).drop 1).drop 32 := by
      rw [List.drop_drop]
    rw [this, hdrop1, List.drop_left' hn]
  have hdrop65 :
      (encodeBytesV1 secret nullifier chunkId amount).drop 65 =
        beBytes 4 chunkId ++ beBytes 8 amount := by
    have : (encodeBytesV1 secret nullifier chunkId amount).drop 65 =
        ((encodeBytesV1 secret nullifier chunkId amount).drop 33).drop 32 := by
      rw [List.drop_drop]
    rw [this, hdrop33, List.drop_left' hs]
  have hdrop69 :
      (encodeBytesV1 secret nullifier chunkId amount).drop 69 =
        beBytes 8 amount := by
    have : (encodeBytesV1 secret nullifier chunkId amount).drop 69 =
        ((encodeBytesV1 secret nullifier chunkId amount).drop 65).drop 4 := by
      rw [List.drop_drop]
    rw [this, hdrop65, List.drop_left' hb4]
  have hhead : (encodeBytesV1 secret nullifier chunkId amount).headI = 1 := by
    simp [encodeBytesV1]
  rw [decodeBytesV1]
  rw [if_neg (by rw [hlen]; norm_num [V1_TOTAL_SIZE]), hhead, if_pos rfl,
    if_neg (by rw [hlen]; simp)]
  congr 1
  refine DecodedCode.mk.injEq .. ▸ ?_
  refine ⟨rfl, ?_, ?_, ?_, ?_⟩
  · rw [hdrop33, List.take_left' hs]
  · rw [hdrop1, List.take_left' hn]
  · rw [hdrop65, List.take_left' hb4, beVal_beBytes 4 chunkId (by exact_mod_cast hc)]
  · rw [hdrop69, List.take_of_length_le (le_of_eq hb8), beVal_beBytes 8 amount (by exact_mod_cast ha)]

theorem jsNumberOfNat_two_pow_53_add_one :
    jsNumberOfNat (2 ^ 53 + 1) = 2 ^ 53 := by
  have hlog : Nat.log2 (2 ^ 53 + 1) = 53 := by
    rw [Nat.log2_eq_log_two]
    exact Nat.log_eq_of_pow_le_of_lt_pow (by norm_num) (by norm_num)
  simp only [jsNumberOfNat, hlog]
  norm_num

/-- C2 (amended).  For 32-byte `secret` and `nullifier`, `chunk_id` in u32 and
`amount` a u64 value of at most `2^53` (the range on which JavaScript
`Number(BigInt)` is exact), decoding the encoded deposit code returns exactly
the original `(secret, nullifier, chunk_id, amount)`, for any base58
transport that round-trips; and decoding rejects (with `BadVersion`) any
non-empty byte string whose first byte is not the recognized version 1. -/
theorem c2_codec_round_trip
    (b58enc : List Nat → List Nat) (b58dec : List Nat → Option (List Nat))
    (hb58 : ∀ l, b58dec (b58enc l) = some l)
    (secret nullifier : List Nat) (chunkId amount : Nat)
    (hs : secret.length = 32) (hn : nullifier.length = 32)
    (hc : chunkId < 2 ^ 32) (ha : amount < 2 ^ 64) (ha53 : amount ≤ 2 ^ 53) :
    decodeDepositCode b58dec (encodeDepositCode b58enc secret nullifier chunkId amount) =
      .ok ⟨1, secret, nullifier, chunkId, amount⟩ ∧
    ∀ buf : List Nat, 1 ≤ buf.length → buf.headI ≠ 1 →
      decodeBytesV1 buf = .error .badVersion := by
  constructor
  · simp only [decodeDepositCode, encodeDepositCode, hb58]
    rw [decodeBytesV1_encodeBytesV1 secret nullifier chunkId amount hs hn hc ha]
    rw [jsNumberOfNat_eq_self ha53]
  · intro buf hlen hver
    rw [decodeBytesV1, if_neg (by omega), if_neg hver]

/-- C2 counterexample.  The claim as stated fails at `amount = 2^53 + 1`:
`decodeDepositCode` converts the decoded u64 amount with JavaScript
`Number(...)`, which rounds `2^53 + 1` down to `2^53`, so the decoded record
is not the original one. -/
theorem c2_codec_amount_counterexample :
    decodeDepositCode some
        (encodeDepositCode id (List.replicate 32 0) (List.replicate 32 0) 0 (2 ^ 53 + 1)) ≠
      .ok ⟨1, List.replicate 32 0, List.replicate 32 0, 0, 2 ^ 53 + 1⟩ := by
  simp only [decodeDepositCode, encodeDepositCode, id]
  rw [decodeBytesV1_encodeBytesV1 _ _ _ _ (List.length_replicate 32 0)
    (List.length_replicate 32 0) (by norm_num) (by norm_num)]
  rw [jsNumberOfNat_two_pow_53_add_one]
  intro h
  have hrec := Except.ok.inj h
  have hamount : (2 : Nat) ^ 53 = 2 ^ 53 + 1 := congrArg DecodedCode.amount hrec
  omega

/-- C2 witness: the round-trip theorem applied at a concrete input. -/
theorem c2_codec_round_trip_witness :
    decodeDepositCode some
        (encodeDepositCode id (List.replicate 32 7) (List.replicate 32 9) 5 1000000) =
      .ok ⟨1, List.replicate 32 7, List.replicate 32 9, 5, 1000000⟩ :=
  (c2_codec_round_trip id some (fun _ => rfl) _ _ 5 1000000
    (List.length_replicate 32 7) (List.length_replicate 32 9)
    (by norm_num) (by norm_num) (by norm_num)).1

/-- C10.  `markAsWithdrawn` with a code matching no record is a no-op that
leaves the store unchanged; with a matching code it rewrites exactly the
first matching record's `withdrawn`, `withdrawTxId` and `withdrawTimestamp`
fields, leaving every other record, and every other field of the matched
record, unchanged. -/
theorem c10_mark_withdrawn_frame (code ref now : String) :
    (∀ deposits : List DepositRec, (∀ d ∈ deposits, d.code ≠ code) →
      markAsWithdrawn deposits code ref now = deposits) ∧
    (∀ (pre post : List DepositRec) (d : DepositRec),
      d.code = code → (∀ x ∈ pre, x.code ≠ code) →
      markAsWithdrawn (pre ++ d :: post) code ref now =
        pre ++ { d with withdrawn := true, withdrawTxId := some ref,
                        withdrawTimestamp := some now } :: post ∧
      ({ d with withdrawn := true, withdrawTxId := some ref,
                withdrawTimestamp := some now } : DepositRec).code = d.code ∧
      ({ d with withdrawn := true, withdrawTxId := some ref,
                withdrawTimestamp := some now } : DepositRec).txId = d.txId ∧
      ({ d with withdrawn := true, withdrawTxId := some ref,
                withdrawTimestamp := some now } : DepositRec).timestamp = d.timestamp ∧
      ({ d with withdrawn := true, withdrawTxId := some ref,
                withdrawTimestamp := some now } : DepositRec).commitment = d.commitment ∧
      ({ d with withdrawn := true, withdrawTxId := some ref,
                withdrawTimestamp := some now } : DepositRec).amount = d.amount) := by
  constructor
  · intro deposits hnone
    induction deposits with
    | nil => rfl
    | cons d ds ih =>
      rw [markAsWithdrawn, if_neg (hnone d (List.mem_cons_self d ds))]
      rw [ih (fun x hx => hnone x (List.mem_cons_of_mem d hx))]
  · intro pre post d hd hpre
    refine ⟨?_, rfl, rfl, rfl, rfl, rfl⟩
    induction pre with
    | nil => simp [markAsWithdrawn, hd]
    | cons p ps ih =>
      simp only [List.cons_append, markAsWithdrawn,
        if_neg (hpre p (List.mem_cons_self p ps))]
      exact congrArg (List.cons p) (ih (fun x hx => hpre x (List.mem_cons_of_mem p hx)))

/-- C10 witness: the frame theorem applied at a concrete two-record store. -/
theorem c10_mark_withdrawn_frame_witness :
    markAsWithdrawn
        [⟨"a", "t1", false, "s1", "m1", 5, none, none⟩,
         ⟨"b", "t2", false, "s2", "m2", 6, none, none⟩] "b" "ref" "now" =
      [⟨"a", "t1", false, "s1", "m1", 5, none, none⟩,
       ⟨"b", "t2", true, "s2", "m2", 6, some "ref", some "now"⟩] :=
  ((c10_mark_withdrawn_frame "b" "ref" "now").2
    [⟨"a", "t1", false, "s1", "m1", 5, none, none⟩] []
    ⟨"b", "t2", false, "s2", "m2", 6, none, none⟩ rfl (by decide)).1

/-- C1 (code bug).  Evaluation of the withdraw submission section at a
failing POST: the deposit is pre-marked withdrawn with the sentinel
reference `PENDING` before the POST, and on 2xx the reference becomes the
queue ID; but when the POST fails, the function throws
`ReferenceError: timeoutId is not defined` and the deposit stays marked
withdrawn both in RAM and in the persistent store — the rollback the claim
(and the code's own `SECURITY FIX` comment) describes never executes. -/
theorem c1_withdraw_premark_no_rollback :
    relayerSubmitSection ⟨false, [⟨"c", "t", false, "s", "m", 5, none, none⟩]⟩
        "c" none "n1" "n2" =
      .error ("timeoutId is not defined",
        ⟨true, [⟨"c", "t", true, "s", "m", 5, some "PENDING", some "n1"⟩]⟩) ∧
    relayerSubmitSection ⟨false, [⟨"c", "t", false, "s", "m", 5, none, none⟩]⟩
        "c" (some "qid") "n1" "n2" =
      .ok (⟨true, [⟨"c", "t", true, "s", "m", 5, some "qid", some "n2"⟩]⟩, "qid") := by
  constructor
  · rfl
  · rfl

theorem hexCharVal_hexDigitChar {n : Nat} (h : n < 16) :
    hexCharVal (hexDigitChar n) = n := by
  interval_cases n <;> decide

theorem parseHexNat_bufToHex_aux (l : List Nat) (h : ∀ b ∈ l, b < 256) (a : Nat) :
    (bufToHex l).foldl (fun acc c => 16 * acc + hexCharVal c) a =
      a * 256 ^ l.length + beVal l := by
  induction l generalizing a with
  | nil => simp [bufToHex, beVal]
  | cons b bs ih =>
    have hb : b < 256 := h b (List.mem_cons_self b bs)
    have hbs : ∀ x ∈ bs, x < 256 := fun x hx => h x (List.mem_cons_of_mem b hx)
    have h1 : hexCharVal (hexDigitChar (b / 16)) = b / 16 :=
      hexCharVal_hexDigitChar (Nat.div_lt_of_lt_mul (by omega))
    have h2 : hexCharVal (hexDigitChar (b % 16)) = b % 16 :=
      hexCharVal_hexDigitChar (Nat.mod_lt _ (by norm_num))
    have hcons : bufToHex (b :: bs) = byteToHexChars b ++ bufToHex bs := rfl
    rw [hcons, List.foldl_append]
    have hinner :
        List.foldl (fun acc c => 16 * acc + hexCharVal c) a (byteToHexChars b) =
          256 * a + b := by
      simp only [byteToHexChars, List.foldl_cons, List.foldl_nil, h1, h2]
      omega
    rw [hinner, ih hbs (256 * a + b), beVal_cons]
    simp only [List.length_cons]
    ring

theorem parseHexNat_bufToHex (l : List Nat) (h : ∀ b ∈ l, b < 256) :
    parseHexNat (bufToHex l) = beVal l := by
  rw [parseHexNat, parseHexNat_bufToHex_aux l h 0]
  simp

/-- C9.  The commitment is a pure, deterministic function of
`(secret, nullifier, amount)`: equal inputs give equal outputs, and the
result is the arity-3 Poseidon applied to the big-endian values of the
buffers in the order nullifier first, then secret, then amount. -/
theorem c9_commitment_order (pos3 : Nat → Nat → Nat → Nat)
    (secret nullifier : List Nat) (amount : Nat)
    (hs : ∀ b ∈ secret, b < 256) (hn : ∀ b ∈ nullifier, b < 256) :
    generateCommitment pos3 secret nullifier amount =
      pos3 (beVal nullifier) (beVal secret) amount ∧
    ∀ s' n' : List Nat, ∀ a' : Nat, s' = secret → n' = nullifier → a' = amount →
      generateCommitment pos3 s' n' a' =
        generateCommitment pos3 secret nullifier amount := by
  constructor
  · rw [generateCommitment]
    rw [parseHexNat_bufToHex secret hs, parseHexNat_bufToHex nullifier hn]
  · intro s' n' a' hs' hn' ha'
    rw [hs', hn', ha']

/-- C9 witness: the commitment theorem applied at a concrete input. -/
theorem c9_commitment_order_witness :
    generateCommitment (fun x y z => x + 2 * y + 3 * z) [1, 2] [3] 10 =
      (fun x y z : Nat => x + 2 * y + 3 * z) (beVal [3]) (beVal [1, 2]) 10 :=
  (c9_commitment_order (fun x y z => x + 2 * y + 3 * z) [1, 2] [3] 10
    (by decide) (by decide)).1

theorem log2_eq_of {t n : Nat} (h1 : 2 ^ t ≤ n) (h2 : n < 2 ^ (t + 1)) :
    Nat.log2 n = t := by
  rw [Nat.log2_eq_log_two]
  exact Nat.log_eq_of_pow_le_of_lt_pow h1 h2

theorem two_pow_log2_le {n : Nat} (hn : n ≠ 0) : 2 ^ Nat.log2 n ≤ n := by
  rw [Nat.log2_eq_log_two]
  exact Nat.pow_log_le_self 2 hn

theorem lt_two_pow_log2_succ (n : Nat) : n < 2 ^ (Nat.log2 n + 1) := by
  rw [Nat.log2_eq_log_two]
  exact Nat.lt_pow_succ_log_self (by norm_num) n

theorem and_shiftLeft_ne_zero_iff (b k : Nat) :
    (b &&& (1 <<< k) ≠ 0) ↔ b / 2 ^ k % 2 = 1 := by
  rw [Nat.shiftLeft_eq, one_mul, Nat.and_two_pow, Nat.testBit_to_div_mod]
  rcases Nat.mod_two_eq_zero_or_one (b / 2 ^ k) with h | h
  · simp [h]
  · simp [h]

theorem highBitFrom_eq {b : Nat} :
    ∀ j, b ≠ 0 → b < 2 ^ (j + 1) → highBitFrom b j = some (Nat.log2 b) := by
  intro j
  induction j with
  | zero =>
    intro hb hlt
    have hb1 : b = 1 := by omega
    subst hb1
    rw [highBitFrom, if_pos (by decide)]
    rw [show Nat.log2 1 = 0 from log2_eq_of (by norm_num) (by norm_num)]
  | succ j ih =>
    intro hb hlt
    rcases Nat.lt_or_ge b (2 ^ (j + 1)) with hsmall | hbig
    · have hcond : ¬(b &&& (1 <<< (j + 1)) ≠ 0) := by
        rw [and_shiftLeft_ne_zero_iff]
        have : b / 2 ^ (j + 1) = 0 := Nat.div_eq_of_lt hsmall
        omega
      rw [highBitFrom, if_neg hcond]
      exact ih hb hsmall
    · have hq : b / 2 ^ (j + 1) = 1 := by
        have h1 : 1 ≤ b / 2 ^ (j + 1) := (Nat.one_le_div_iff (Nat.pos_pow_of_pos _ (by norm_num))).2 hbig
        have h2 : b / 2 ^ (j + 1) < 2 := by
          apply Nat.div_lt_of_lt_mul
          calc b < 2 ^ (j + 1 + 1) := hlt
            _ = 2 ^ (j + 1) * 2 := by ring
        omega
      have hcond : b &&& (1 <<< (j + 1)) ≠ 0 := by
        rw [and_shiftLeft_ne_zero_iff]
        omega
      rw [highBitFrom, if_pos hcond]
      rw [log2_eq_of hbig hlt]

theorem log2_mul_pow_add {x k r : Nat} (hx : x ≠ 0) (hr : r < 256 ^ k) :
    Nat.log2 (x * 256 ^ k + r) = 8 * k + Nat.log2 x := by
  have h256 : (256 : Nat) ^ k = 2 ^ (8 * k) := by
    rw [show (256 : Nat) = 2 ^ 8 by norm_num, ← pow_mul]
  apply log2_eq_of
  · have e1 : (2 : Nat) ^ (8 * k + Nat.log2 x) = 2 ^ Nat.log2 x * 2 ^ (8 * k) := by
      rw [← pow_add]
      congr 1
      omega
    have h2 : 2 ^ Nat.log2 x * 2 ^ (8 * k) ≤ x * 2 ^ (8 * k) :=
      Nat.mul_le_mul_right _ (two_pow_log2_le hx)
    rw [e1, h256]
    exact le_trans h2 (Nat.le_add_right _ _)
  · have hrt : r < 2 ^ (8 * k) := h256 ▸ hr
    have step1 : x * 2 ^ (8 * k) + r < (x + 1) * 2 ^ (8 * k) := by
      have hsm : (x + 1) * 2 ^ (8 * k) = x * 2 ^ (8 * k) + 2 ^ (8 * k) := by ring
      omega
    have step2 : (x + 1) * 2 ^ (8 * k) ≤ 2 ^ (Nat.log2 x + 1) * 2 ^ (8 * k) :=
      Nat.mul_le_mul_right _ (Nat.succ_le_of_lt (lt_two_pow_log2_succ x))
    have e2 : (2 : Nat) ^ (Nat.log2 x + 1) * 2 ^ (8 * k) = 2 ^ (8 * k + Nat.log2 x + 1) := by
      rw [← pow_add]
      congr 1
      omega
    rw [h256]
    exact lt_of_lt_of_le step1 (e2 ▸ step2)

theorem bucketIndexAux_eq_log2 :
    ∀ (l : List Nat) (i : Nat), (∀ b ∈ l, b < 256) → beVal l ≠ 0 →
      i + l.length = 32 →
      bucketIndexAux 32 l i = Nat.log2 (beVal l) := by
  intro l
  induction l with
  | nil => intro i _ hv _; simp [beVal] at hv
  | cons b rest ih =>
    intro i hlt hv hlen
    have hb : b < 256 := hlt b (List.mem_cons_self b rest)
    have hrest : ∀ x ∈ rest, x < 256 := fun x hx => hlt x (List.mem_cons_of_mem b hx)
    rcases Nat.eq_zero_or_pos b with hb0 | hbpos
    · subst hb0
      have hnone : highBitFrom 0 7 = none := by decide
      rw [bucketIndexAux, hnone]
      have hv' : beVal (0 :: rest) = beVal rest := by
        rw [beVal_cons]; ring
      rw [hv'] at hv ⊢
      exact ih (i + 1) hrest hv (by simp at hlen ⊢; omega)
    · have hbne : b ≠ 0 := by omega
      have hb256 : b < 2 ^ (7 + 1) := by
        have he : (2 : Nat) ^ (7 + 1) = 256 := by norm_num
        omega
      have hsome : highBitFrom b 7 = some (Nat.log2 b) :=
        highBitFrom_eq 7 hbne hb256
      rw [beVal_cons, log2_mul_pow_add hbne (beVal_lt rest hrest)]
      simp only [bucketIndexAux, hsome]
      have hlog7 : Nat.log2 b ≤ 7 := by
        by_contra hgt
        have h8 : 8 ≤ Nat.log2 b := by omega
        have hp : (2 : Nat) ^ 8 ≤ 2 ^ Nat.log2 b := Nat.pow_le_pow_right (by norm_num) h8
        have hq := two_pow_log2_le hbne
        norm_num at hp
        omega
      have hlen' : i + (rest.length + 1) = 32 := by simpa using hlen
      omega

theorem eq_of_beVal_distance_eq_zero :
    ∀ (a b : List Nat), a.length = b.length → beVal (distance a b) = 0 → a = b := by
  intro a
  induction a with
  | nil =>
    intro b hlen _
    cases b with
    | nil => rfl
    | cons y ys => simp at hlen
  | cons x xs ih =>
    intro b hlen hz
    cases b with
    | nil => simp at hlen
    | cons y ys =>
      have hcons : distance (x :: xs) (y :: ys) = (x ^^^ y) :: distance xs ys := rfl
      rw [hcons, beVal_cons] at hz
      have hpow : 0 < 256 ^ (distance xs ys).length :=
        Nat.pos_pow_of_pos _ (by norm_num)
      have hmul : (x ^^^ y) * 256 ^ (distance xs ys).length = 0 := by omega
      have hxy : x ^^^ y = 0 := by
        rcases Nat.mul_eq_zero.1 hmul with h | h
        · exact h
        · omega
      have hrest : beVal (distance xs ys) = 0 := by omega
      have h1 : x = y := Nat.xor_eq_zero.1 hxy
      have h2 : xs = ys := ih ys (by simpa using hlen) hrest
      rw [h1, h2]

theorem distance_beVal_ne_zero {a b : List Nat} (hab : a ≠ b)
    (ha : a.length = 32) (hb : b.length = 32) :
    beVal (distance a b) ≠ 0 := fun hz =>
  hab (eq_of_beVal_distance_eq_zero a b (by omega) hz)

/-- C6 (amended).  For distinct 256-bit node IDs `a ≠ b`, the bucket index of
`d = a XOR b` lies in `[0, 255]` and equals `⌊log2 d⌋` — that is,
`255 - (index of the highest set bit counted from the most-significant
end)`, not `255 - ⌊log2 d⌋`; and a peer whose id equals the node's own id is
never inserted into any bucket. -/
theorem c6_bucket_index (a b : List Nat)
    (ha : a.length = 32) (hb : b.length = 32)
    (hab : a ≠ b) (hbytesa : ∀ x ∈ a, x < 256) (hbytesb : ∀ x ∈ b, x < 256) :
    bucketIndex (distance a b) = Nat.log2 (beVal (distance a b)) ∧
    bucketIndex (distance a b) ≤ 255 ∧
    ∀ (st : RoutingState) (node : DHTPeer), node.id = st.selfId →
      addNode st node = st := by
  have hlen : (distance a b).length = 32 := by
    simp [distance, List.length_zipWith, ha, hb]
  have hbytes : ∀ x ∈ distance a b, x < 256 := by
    intro x hx
    simp only [distance] at hx
    rcases List.mem_iff_getElem.1 hx with ⟨n, hn, hget⟩
    rw [List.getElem_zipWith] at hget
    have hlt : n < a.length := by
      simp only [List.length_zipWith] at hn; omega
    have hltb : n < b.length := by
      simp only [List.length_zipWith] at hn; omega
    have h1 : a[n] < 256 := hbytesa _ (List.getElem_mem hlt)
    have h2 : b[n] < 256 := hbytesb _ (List.getElem_mem hltb)
    have h256 : (256 : Nat) = 2 ^ 8 := by norm_num
    have hx8 : a[n] ^^^ b[n] < 2 ^ 8 :=
      Nat.xor_lt_two_pow (h256 ▸ h1) (h256 ▸ h2)
    omega
  have hne : beVal (distance a b) ≠ 0 := distance_beVal_ne_zero hab ha hb
  have heq : bucketIndex (distance a b) = Nat.log2 (beVal (distance a b)) := by
    rw [bucketIndex]
    exact bucketIndexAux_eq_log2 (distance a b) 0 hbytes hne (by omega)
  refine ⟨heq, ?_, ?_⟩
  · rw [heq]
    have hval : beVal (distance a b) < 2 ^ 256 := by
      have := beVal_lt (distance a b) hbytes
      rw [hlen] at this
      calc beVal (distance a b) < 256 ^ 32 := this
        _ = 2 ^ 256 := by norm_num
    by_contra hgt
    have h256 : 256 ≤ Nat.log2 (beVal (distance a b)) := by omega
    have h1 : (2 : Nat) ^ 256 ≤ 2 ^ Nat.log2 (beVal (distance a b)) :=
      Nat.pow_le_pow_right (by norm_num) h256
    have h2 := two_pow_log2_le hne
    omega
  · intro st node hid
    rw [addNode, if_pos (by simp [hid])]

/-- C6 counterexample.  The claim's formula `255 - ⌊log2 d⌋` fails on the
code: for the distance with value 1 (lowest bit set), `bucketIndex` returns
`0`, not `255`. -/
theorem c6_bucket_index_counterexample :
    bucketIndex
        (distance (List.replicate 32 0) (List.replicate 31 0 ++ [1])) ≠
      255 - Nat.log2 (beVal (distance (List.replicate 32 0) (List.replicate 31 0 ++ [1]))) := by
  have h1 : bucketIndex (distance (List.replicate 32 0) (List.replicate 31 0 ++ [1])) = 0 := by
    decide
  have h2 : beVal (distance (List.replicate 32 0) (List.replicate 31 0 ++ [1])) = 1 := by
    decide
  rw [h1, h2]
  have : Nat.log2 1 = 0 := log2_eq_of (by norm_num) (by norm_num)
  omega

/-- C6 witness: the amended bucket-index theorem applied to two concrete
distinct 32-byte IDs. -/
theorem c6_bucket_index_witness :
    bucketIndex (distance (List.replicate 32 0) (List.replicate 31 0 ++ [1])) =
      Nat.log2 (beVal (distance (List.replicate 32 0) (List.replicate 31 0 ++ [1]))) :=
  (c6_bucket_index (List.replicate 32 0) (List.replicate 31 0 ++ [1])
    (by decide) (by decide) (by decide) (by decide) (by decide)).1

theorem kbucketAdd_fresh_append :
    ∀ (ns acc : List DHTPeer), (acc ++ ns).Pairwise (fun p q => p.id ≠ q.id) →
      acc.length + ns.length ≤ DHT_K →
      ns.foldl (kbucketAdd DHT_K) acc = acc ++ ns := by
  intro ns
  induction ns with
  | nil => intro acc _ _; simp
  | cons m ms ih =>
    intro acc hpw hlen
    have hfresh : acc.any (fun x => x.id == m.id) = false := by
      rw [List.any_eq_false]
      intro x hx
      have hne : x.id ≠ m.id := by
        have hp := (List.pairwise_append.1 hpw).2.2
        exact hp x hx m (List.mem_cons_self m ms)
      simp [hne]
    have hstep : kbucketAdd DHT_K acc m = acc ++ [m] := by
      rw [kbucketAdd, if_neg (by simp [hfresh]), if_pos (by simp at hlen ⊢; omega)]
    rw [List.foldl_cons, hstep]
    have hpw' : ((acc ++ [m]) ++ ms).Pairwise (fun p q => p.id ≠ q.id) := by
      rw [List.append_assoc]
      simpa using hpw
    have hlen' : (acc ++ [m]).length + ms.length ≤ DHT_K := by
      simp at hlen ⊢
      omega
    rw [ih (acc ++ [m]) hpw' hlen', List.append_assoc]
    rfl

/-- C7.  A k-bucket holds at most `K = 20` records: `add` of a present peer
moves it to the tail (the bucket becomes the bucket with the old entry
erased, the peer appended last), `add` of a fresh peer appends at the tail
when the bucket is not full and leaves a full bucket unchanged; `K`
distinct inserts into an empty bucket produce exactly those `K` entries and
the `(K+1)`th distinct insert leaves the bucket unchanged. -/
theorem c7_kbucket_lru :
    (∀ (nodes : List DHTPeer) (n : DHTPeer), nodes.length ≤ DHT_K →
      (kbucketAdd DHT_K nodes n).length ≤ DHT_K) ∧
    (∀ (nodes : List DHTPeer) (n : DHTPeer),
      nodes.any (fun m => m.id == n.id) = true →
      kbucketAdd DHT_K nodes n = nodes.eraseP (fun m => m.id == n.id) ++ [n] ∧
      (kbucketAdd DHT_K nodes n).getLast? = some n) ∧
    (∀ (nodes : List DHTPeer) (n : DHTPeer),
      nodes.any (fun m => m.id == n.id) = false → nodes.length < DHT_K →
      kbucketAdd DHT_K nodes n = nodes ++ [n]) ∧
    (∀ (nodes : List DHTPeer) (n : DHTPeer),
      nodes.any (fun m => m.id == n.id) = false → DHT_K ≤ nodes.length →
      kbucketAdd DHT_K nodes n = nodes) ∧
    (∀ (ns : List DHTPeer) (n : DHTPeer),
      ns.length = DHT_K → (ns ++ [n]).Pairwise (fun p q => p.id ≠ q.id) →
      ns.foldl (kbucketAdd DHT_K) [] = ns ∧
      kbucketAdd DHT_K (ns.foldl (kbucketAdd DHT_K) []) n = ns) := by
  have hpresent : ∀ (nodes : List DHTPeer) (n : DHTPeer),
      nodes.any (fun m => m.id == n.id) = true →
      kbucketAdd DHT_K nodes n = nodes.eraseP (fun m => m.id == n.id) ++ [n] := by
    intro nodes n h
    rw [kbucketAdd, if_pos h]
  have hfresh_append : ∀ (nodes : List DHTPeer) (n : DHTPeer),
      nodes.any (fun m => m.id == n.id) = false → nodes.length < DHT_K →
      kbucketAdd DHT_K nodes n = nodes ++ [n] := by
    intro nodes n h hlt
    rw [kbucketAdd, if_neg (by simp [h]), if_pos hlt]
  have hfull : ∀ (nodes : List DHTPeer) (n : DHTPeer),
      nodes.any (fun m => m.id == n.id) = false → DHT_K ≤ nodes.length →
      kbucketAdd DHT_K nodes n = nodes := by
    intro nodes n h hge
    rw [kbucketAdd, if_neg (by simp [h]), if_neg (by omega)]
  refine ⟨?_, ?_, hfresh_append, hfull, ?_⟩
  · intro nodes n hlen
    rw [kbucketAdd]
    by_cases hp : nodes.any (fun m => m.id == n.id) = true
    · rw [if_pos hp]
      have he := List.length_eraseP (l := nodes) (p := fun m => m.id == n.id)
      rw [hp] at he
      simp only [if_true] at he
      simp only [List.length_append, List.length_cons, List.length_nil, he]
      have : 1 ≤ nodes.length := by
        rcases List.any_eq_true.1 hp with ⟨x, hx, _⟩
        exact List.length_pos.2 (fun hnil => by subst hnil; simp at hx)
      omega
    · rw [if_neg hp]
      by_cases hl : nodes.length < DHT_K
      · rw [if_pos hl]
        simp only [List.length_append, List.length_cons, List.length_nil]
        omega
      · rw [if_neg hl]
        exact hlen
  · intro nodes n h
    refine ⟨hpresent nodes n h, ?_⟩
    rw [hpresent nodes n h]
    simp
  · intro ns n hlen hpw
    have hfold : ns.foldl (kbucketAdd DHT_K) [] = ns := by
      have hpw' : (([] : List DHTPeer) ++ ns).Pairwise (fun p q => p.id ≠ q.id) := by
        simpa using (List.pairwise_append.1 hpw).1
      have := kbucketAdd_fresh_append ns [] hpw' (by simp [hlen])
      simpa using this
    refine ⟨hfold, ?_⟩
    rw [hfold]
    apply hfull
    · rw [List.any_eq_false]
      intro x hx
      have hne : x.id ≠ n.id :=
        (List.pairwise_append.1 hpw).2.2 x hx n (List.mem_cons_self n [])
      simp [hne]
    · omega

/-- C7 witness: inserting a fresh peer into an empty bucket appends it. -/
theorem c7_kbucket_lru_witness :
    kbucketAdd DHT_K [] ⟨[1], "h", 8000, 0⟩ = [⟨[1], "h", 8000, 0⟩] :=
  c7_kbucket_lru.2.2.1 [] ⟨[1], "h", 8000, 0⟩ (by decide) (by decide)

theorem checkRateLimit_entry (requests : Nat) (window : Int) (ip : String)
    (done : List Int) (t : Int)
    (hin : ∀ d ∈ done, t - window < d) (hlen : done.length < requests) :
    checkRateLimit requests window [(ip, done)] ip t = (true, [(ip, done ++ [t])]) := by
  have hany : ([(ip, done)] : RateMap).any (fun e => e.1 == ip) = true := by simp
  have hfind : (([(ip, done)] : RateMap).find? (fun e => e.1 == ip)) = some (ip, done) := by
    simp
  have hfilter : done.filter (fun ts => decide (t - window < ts)) = done :=
    List.filter_eq_self.2 (fun d hd => by simp [hin d hd])
  simp only [checkRateLimit, hany, if_true, hfind, Option.map_some', Option.getD_some,
    hfilter, setEntry]
  rw [if_neg (by omega)]
  simp [hfilter]

theorem runRequests_entry (requests : Nat) (window : Int) (ip : String) :
    ∀ (ts done : List Int),
      (done ++ ts).Pairwise (fun a b => a ≤ b ∧ b - a < window) →
      done.length + ts.length ≤ requests →
      runRequests requests window ip ts [(ip, done)] =
        (List.replicate ts.length true, [(ip, done ++ ts)]) := by
  intro ts
  induction ts with
  | nil => intro done _ _; simp [runRequests]
  | cons t rest ih =>
    intro done hpw hlen
    have hin : ∀ d ∈ done, t - window < d := by
      intro d hd
      have h := (List.pairwise_append.1 hpw).2.2 d hd t (List.mem_cons_self t rest)
      omega
    have hl : done.length < requests := by
      simp at hlen
      omega
    have hstep := checkRateLimit_entry requests window ip done t hin hl
    rw [runRequests]
    simp only [hstep]
    have hpw' : ((done ++ [t]) ++ rest).Pairwise (fun a b => a ≤ b ∧ b - a < window) := by
      rw [List.append_assoc]
      simpa using hpw
    have hlen' : (done ++ [t]).length + rest.length ≤ requests := by
      simp at hlen ⊢
      omega
    rw [ih (done ++ [t]) hpw' hlen']
    simp [List.append_assoc, List.replicate_succ]

/-- C8.  With the sliding-window rate limit of `r` requests per window `w`:
starting from an empty map, the first `r` requests from one IP inside a
single window all pass (leaving exactly their timestamps stored), the
`(r+1)`th request inside the same window is answered with HTTP 429 (map
unchanged), and a fresh request issued after the window has elapsed passes
again. -/
theorem c8_rate_limit (r : Nat) (w : Int) (ip : String)
    (t0 : Int) (rest : List Int) (tExtra tLate : Int)
    (hr : 1 ≤ r) (hw : 0 < w)
    (hlen : (t0 :: rest).length = r)
    (hpw : ((t0 :: rest) ++ [tExtra]).Pairwise (fun a b => a ≤ b ∧ b - a < w))
    (hlate : ∀ t ∈ t0 :: rest, t + w ≤ tLate) :
    runRequests r w ip (t0 :: rest) [] =
      (List.replicate r true, [(ip, t0 :: rest)]) ∧
    handleSubmitGate r w [(ip, t0 :: rest)] ip tExtra =
      .error (429, [(ip, t0 :: rest)]) ∧
    (checkRateLimit r w [(ip, t0 :: rest)] ip tLate).1 = true := by
  have hpwRun : (t0 :: rest).Pairwise (fun a b => a ≤ b ∧ b - a < w) :=
    (List.pairwise_append.1 hpw).1
  refine ⟨?_, ?_, ?_⟩
  · have hfirst : checkRateLimit r w [] ip t0 = (true, [(ip, [t0])]) := by
      have h0 : (r ≤ 0) = False := by
        simp only [eq_iff_iff, iff_false]
        omega
      simp [checkRateLimit, setEntry, h0]
    rw [runRequests]
    simp only [hfirst]
    have hpw' : (([t0] : List Int) ++ rest).Pairwise (fun a b => a ≤ b ∧ b - a < w) := by
      simpa using hpwRun
    have hlen' : ([t0] : List Int).length + rest.length ≤ r := by
      simp at hlen ⊢
      omega
    rw [runRequests_entry r w ip rest [t0] hpw' hlen']
    have hr2 : r = rest.length + 1 := by
      simp at hlen
      omega
    subst hr2
    simp [List.replicate_succ]
  · have hanyT : (([(ip, t0 :: rest)] : RateMap).any (fun e => e.1 == ip)) = true := by simp
    have hfindT : (([(ip, t0 :: rest)] : RateMap).find? (fun e => e.1 == ip)) =
        some (ip, t0 :: rest) := by simp
    have hfilterT : (t0 :: rest).filter (fun ts => decide (tExtra - w < ts)) = t0 :: rest := by
      apply List.filter_eq_self.2
      intro d hd
      have h := (List.pairwise_append.1 hpw).2.2 d hd tExtra (List.mem_cons_self tExtra [])
      simp
      omega
    rw [handleSubmitGate]
    simp only [checkRateLimit, hanyT, if_true, hfindT, Option.map_some', Option.getD_some,
      hfilterT]
    rw [if_pos (by simp at hlen ⊢; omega)]
  · have hanyT : (([(ip, t0 :: rest)] : RateMap).any (fun e => e.1 == ip)) = true := by simp
    have hfindT : (([(ip, t0 :: rest)] : RateMap).find? (fun e => e.1 == ip)) =
        some (ip, t0 :: rest) := by simp
    have hfilterT : (t0 :: rest).filter (fun ts => decide (tLate - w < ts)) = [] := by
      rw [List.filter_eq_nil_iff]
      intro d hd
      have h := hlate d hd
      simp
      omega
    simp only [checkRateLimit, hanyT, if_true, hfindT, Option.map_some', Option.getD_some,
      hfilterT]
    rw [if_neg (by simp; omega)]

/-- C8 witness: the rate-limit theorem at the default configuration
`10 requests / 60000 ms` with ten requests at millisecond times 0..9, an
eleventh at time 10, and a fresh one at time 70000. -/
theorem c8_rate_limit_witness :
    runRequests 10 60000 "ip" [0, 1, 2, 3, 4, 5, 6, 7, 8, 9] [] =
      (List.replicate 10 true, [("ip", [0, 1, 2, 3, 4, 5, 6, 7, 8, 9])]) :=
  (c8_rate_limit 10 60000 "ip" 0 [1, 2, 3, 4, 5, 6, 7, 8, 9] 10 70000
    (by norm_num) (by norm_num) (by decide)
    (by norm_num [List.pairwise_cons])
    (by intro t ht; simp at ht; omega)).1

theorem TreeState.leaves_mk (l : List Nat) (t : Arr) (r : Nat) :
    (⟨l, t, r⟩ : TreeState).leaves = l := rfl

theorem TreeState.tree_mk (l : List Nat) (t : Arr) (r : Nat) :
    (⟨l, t, r⟩ : TreeState).tree = t := rfl

theorem TreeState.root_mk (l : List Nat) (t : Arr) (r : Nat) :
    (⟨l, t, r⟩ : TreeState).root = r := rfl

theorem off_succ_eq (h l : Nat) : off h (l + 1) = off h l + 2 ^ (h - l) := rfl

theorem off_lt_succ (h l : Nat) : off h l < off h (l + 1) := by
  rw [off_succ_eq]
  have hp : 0 < 2 ^ (h - l) := Nat.pos_pow_of_pos _ (by norm_num)
  omega

theorem off_le_of_le (h : Nat) {l l' : Nat} (hle : l ≤ l') : off h l ≤ off h l' := by
  induction hle with
  | refl => exact le_refl _
  | step _ ih => exact le_trans ih (le_of_lt (off_lt_succ h _))

theorem off_add_lt_succ (h l i : Nat) (hi : i < 2 ^ (h - l)) :
    off h l + i < off h (l + 1) := by
  rw [off_succ_eq]
  omega

theorem off_block_lt {h l l' i : Nat} (hll : l < l') (hi : i < 2 ^ (h - l)) :
    off h l + i < off h l' :=
  lt_of_lt_of_le (off_add_lt_succ h l i hi) (off_le_of_le h hll)

theorem off_closed (h : Nat) : ∀ l, l ≤ h → off h l = 2 ^ (h + 1) - 2 ^ (h + 1 - l) := by
  intro l
  induction l with
  | zero => simp [off]
  | succ l ih =>
    intro hl
    rw [off_succ_eq, ih (by omega)]
    have h1 : (2 : Nat) ^ (h + 1 - l) = 2 * 2 ^ (h - l) := by
      rw [show h + 1 - l = (h - l) + 1 by omega]
      ring
    have h2 : 2 * 2 ^ (h - l) ≤ 2 ^ (h + 1) := by
      calc 2 * 2 ^ (h - l) = 2 ^ ((h - l) + 1) := by ring
        _ ≤ 2 ^ (h + 1) := Nat.pow_le_pow_right (by norm_num) (by omega)
    have h3 : h + 1 - (l + 1) = h - l := by omega
    rw [h3]
    omega

theorem off_top (h : Nat) : off h h = treeSize h - 1 := by
  rw [off_closed h h (le_refl h), treeSize]
  have h1 : h + 1 - h = 1 := by omega
  rw [h1]
  have h2 : (2 : Nat) ^ 1 = 2 := by norm_num
  have h3 : 2 ≤ 2 ^ (h + 1) := by
    calc (2 : Nat) = 2 ^ 1 := by norm_num
      _ ≤ 2 ^ (h + 1) := Nat.pow_le_pow_right (by norm_num) (by omega)
  omega

theorem buildPairsLoop_get (pos : Nat → Nat → Nat) (level nodeOffset count : Nat) :
    ∀ (m : Nat) (a : Arr), 2 * m ≤ count →
      ∀ x, buildPairsLoop pos level nodeOffset count m a x =
        if nodeOffset + count ≤ x ∧ x < nodeOffset + count + m then
          pos (a (nodeOffset + 2 * (x - (nodeOffset + count))))
            (if 2 * (x - (nodeOffset + count)) + 1 < count ∧
                a (nodeOffset + 2 * (x - (nodeOffset + count)) + 1) ≠ 0 then
              a (nodeOffset + 2 * (x - (nodeOffset + count)) + 1)
            else zeroSub pos level)
        else a x := by
  intro m
  induction m with
  | zero =>
    intro a _ x
    rw [buildPairsLoop, if_neg (by omega)]
  | succ m ih =>
    intro a hm x
    have hb := ih a (by omega)
    have hread1 : buildPairsLoop pos level nodeOffset count m a (nodeOffset + 2 * m) =
        a (nodeOffset + 2 * m) := by
      rw [hb, if_neg (by omega)]
    have hread2 : buildPairsLoop pos level nodeOffset count m a (nodeOffset + 2 * m + 1) =
        a (nodeOffset + 2 * m + 1) := by
      rw [hb, if_neg (by omega)]
    rw [buildPairsLoop]
    rw [buildPairStep, wr]
    by_cases hx : x = nodeOffset + count + m
    · subst hx
      rw [if_pos rfl, hread1, hread2]
      conv_rhs =>
        rw [if_pos (show nodeOffset + count ≤ nodeOffset + count + m ∧
          nodeOffset + count + m < nodeOffset + count + (m + 1) from by omega)]
      rw [show nodeOffset + count + m - (nodeOffset + count) = m from by omega]
    · rw [if_neg hx, hb x]
      by_cases hin : nodeOffset + count ≤ x ∧ x < nodeOffset + count + m
      · rw [if_pos hin,
          if_pos (show nodeOffset + count ≤ x ∧ x < nodeOffset + count + (m + 1) from
            by omega)]
      · rw [if_neg hin,
          if_neg (show ¬(nodeOffset + count ≤ x ∧ x < nodeOffset + count + (m + 1)) from
            by omega)]

theorem buildLevelsLoop_spec (pos : Nat → Nat → Nat) (h : Nat) (leaves : List Nat) :
    ∀ (fuel level : Nat) (a : Arr),
      level + fuel = h →
      (∀ i, i < 2 ^ (h - level) → a (off h level + i) = nodeVal pos leaves level i) →
      (∀ x, off h (level + 1) ≤ x → a x = 0) →
      (∀ x, x < off h level →
        buildLevelsLoop pos fuel level (off h level) (2 ^ (h - level)) a x = a x) ∧
      (∀ l i, level ≤ l → l ≤ h → i < 2 ^ (h - l) →
        buildLevelsLoop pos fuel level (off h level) (2 ^ (h - level)) a (off h l + i) =
          nodeVal pos leaves l i) := by
  intro fuel
  induction fuel with
  | zero =>
    intro level a hlf hyp1 _
    constructor
    · intro x _
      rw [buildLevelsLoop]
    · intro l i hll hlh hi
      have hl : l = level := by omega
      subst hl
      rw [buildLevelsLoop]
      exact hyp1 i hi
  | succ fuel ih =>
    intro level a hlf hyp1 hyp2
    have hlev : level < h := by omega
    have hcnt : 2 ^ (h - level) = 2 * 2 ^ (h - (level + 1)) := by
      rw [show h - level = (h - (level + 1)) + 1 by omega]
      ring
    have hhalf : 2 ^ (h - level) / 2 = 2 ^ (h - (level + 1)) := by omega
    have hple : 2 * (2 ^ (h - level) / 2) ≤ 2 ^ (h - level) := by omega
    have hget := buildPairsLoop_get pos level (off h level) (2 ^ (h - level))
      (2 ^ (h - level) / 2) a hple
    set b := buildPairsLoop pos level (off h level) (2 ^ (h - level))
      (2 ^ (h - level) / 2) a with hbdef
    have hb_low : ∀ x, x < off h (level + 1) → b x = a x := by
      intro x hx
      rw [off_succ_eq] at hx
      rw [hget x, if_neg (by omega)]
    have hb_parent : ∀ j, j < 2 ^ (h - (level + 1)) →
        b (off h (level + 1) + j) = nodeVal pos leaves (level + 1) j := by
      intro j hj
      have hx1 : off h level + 2 ^ (h - level) ≤ off h (level + 1) + j := by
        rw [off_succ_eq]
        omega
      have hx2 : off h (level + 1) + j <
          off h level + 2 ^ (h - level) + 2 ^ (h - level) / 2 := by
        rw [off_succ_eq]
        omega
      rw [hget, if_pos ⟨hx1, hx2⟩]
      have hjr : off h (level + 1) + j - (off h level + 2 ^ (h - level)) = j := by
        rw [off_succ_eq]
        omega
      rw [hjr]
      have h2j : 2 * j < 2 ^ (h - level) := by omega
      have h2j1 : 2 * j + 1 < 2 ^ (h - level) := by omega
      have hr1 : a (off h level + 2 * j) = nodeVal pos leaves level (2 * j) :=
        hyp1 (2 * j) h2j
      have hr2 : a (off h level + 2 * j + 1) = nodeVal pos leaves level (2 * j + 1) := by
        rw [show off h level + 2 * j + 1 = off h level + (2 * j + 1) from by omega]
        exact hyp1 (2 * j + 1) h2j1
      rw [hr1, hr2]
      conv_rhs => rw [nodeVal]
      by_cases hz : nodeVal pos leaves level (2 * j + 1) ≠ 0
      · rw [if_pos ⟨h2j1, hz⟩, if_pos hz]
      · rw [if_neg (fun hcon => hz hcon.2), if_neg hz]
    have hb_high : ∀ x, off h (level + 1 + 1) ≤ x → b x = 0 := by
      intro x hx
      have hxx : off h (level + 1) + 2 ^ (h - (level + 1)) ≤ x := by
        rw [← off_succ_eq]
        exact hx
      rw [off_succ_eq] at hxx
      rw [hget x, if_neg (by omega)]
      exact hyp2 x (by rw [off_succ_eq]; omega)
    have hrec : buildLevelsLoop pos (fuel + 1) level (off h level) (2 ^ (h - level)) a =
        buildLevelsLoop pos fuel (level + 1) (off h (level + 1)) (2 ^ (h - (level + 1))) b := by
      rw [buildLevelsLoop, ← hbdef, hhalf, ← off_succ_eq]
    have ihres := ih (level + 1) b (by omega) hb_parent hb_high
    constructor
    · intro x hx
      rw [hrec]
      have hx' : x < off h (level + 1) := lt_trans hx (off_lt_succ h level)
      rw [ihres.1 x (lt_trans hx (off_lt_succ h level))]
      exact hb_low x hx'
    · intro l i hll hlh hi
      rw [hrec]
      rcases Nat.eq_or_lt_of_le hll with heq | hlt
      · subst heq
        have haddr : off h level + i < off h (level + 1) := off_add_lt_succ h level i hi
        rw [ihres.1 _ haddr]
        rw [hb_low _ haddr]
        exact hyp1 i hi
      · exact ihres.2 l i hlt hlh hi

theorem buildArr_spec (pos : Nat → Nat → Nat) (h : Nat) (leaves : List Nat)
    (hlen : leaves.length ≤ 2 ^ h) :
    ∀ l i, l ≤ h → i < 2 ^ (h - l) →
      buildArr pos h leaves (off h l + i) = nodeVal pos leaves l i := by
  intro l i hl hi
  have hyp1 : ∀ i, i < 2 ^ (h - 0) → initLeaves leaves (off h 0 + i) =
      nodeVal pos leaves 0 i := by
    intro i _
    show initLeaves leaves (0 + i) = nodeVal pos leaves 0 i
    rw [Nat.zero_add, initLeaves, nodeVal]
    by_cases hlt : i < leaves.length
    · rw [if_pos hlt]
    · rw [if_neg hlt]
      rw [List.getD_eq_default _ _ (by omega)]
  have hyp2 : ∀ x, off h (0 + 1) ≤ x → initLeaves leaves x = 0 := by
    intro x hx
    have h1 : off h 1 = 2 ^ h := by
      rw [off_succ_eq]
      show 0 + 2 ^ (h - 0) = 2 ^ h
      rw [Nat.zero_add, Nat.sub_zero]
    rw [h1] at hx
    rw [initLeaves, if_neg (by omega)]
  have hres := (buildLevelsLoop_spec pos h leaves h 0 (initLeaves leaves)
    (by omega) hyp1 hyp2).2 l i (by omega) hl hi
  have hform : buildArr pos h leaves =
      buildLevelsLoop pos h 0 (off h 0) (2 ^ (h - 0)) (initLeaves leaves) := by
    rw [buildArr]
    rfl
  rw [hform]
  exact hres

theorem getD_snoc_ne (L : List Nat) (v : Nat) (k : Nat) (hk : k ≠ L.length) :
    (L ++ [v]).getD k 0 = L.getD k 0 := by
  rcases Nat.lt_or_ge k L.length with hlt | hge
  · rw [List.getD_append _ _ _ _ hlt]
  · rw [List.getD_eq_default _ _ (by simp; omega), List.getD_eq_default _ _ hge]

theorem getD_snoc_last (L : List Nat) (v : Nat) :
    (L ++ [v]).getD L.length 0 = v := by
  rw [List.getD_append_right _ _ _ _ (le_refl _)]
  simp

theorem nodeVal_congr (pos : Nat → Nat → Nat) :
    ∀ (l i : Nat) (L M : List Nat),
      (∀ j, j < 2 ^ l → L.getD (2 ^ l * i + j) 0 = M.getD (2 ^ l * i + j) 0) →
      nodeVal pos L l i = nodeVal pos M l i := by
  intro l
  induction l with
  | zero =>
    intro i L M hw
    have h0 := hw 0 (by norm_num)
    simpa [nodeVal] using h0
  | succ l ih =>
    intro i L M hw
    have hL : nodeVal pos L l (2 * i) = nodeVal pos M l (2 * i) := by
      apply ih
      intro j hj
      rw [show 2 ^ l * (2 * i) + j = 2 ^ (l + 1) * i + j from by ring]
      exact hw j (lt_of_lt_of_le hj (Nat.pow_le_pow_right (by norm_num) (by omega)))
    have hR : nodeVal pos L l (2 * i + 1) = nodeVal pos M l (2 * i + 1) := by
      apply ih
      intro j hj
      rw [show 2 ^ l * (2 * i + 1) + j = 2 ^ (l + 1) * i + (2 ^ l + j) from by ring]
      refine hw (2 ^ l + j) ?_
      have hps : (2 : Nat) ^ (l + 1) = 2 ^ l * 2 := pow_succ 2 l
      omega
    rw [nodeVal, nodeVal, hL, hR]

theorem nodeVal_snoc_off_path (pos : Nat → Nat → Nat) (L : List Nat) (v : Nat)
    (l i : Nat) (hne : i ≠ L.length / 2 ^ l) :
    nodeVal pos (L ++ [v]) l i = nodeVal pos L l i := by
  apply nodeVal_congr
  intro j hj
  have hkne : 2 ^ l * i + j ≠ L.length := by
    intro hk
    apply hne
    have hpow : 0 < 2 ^ l := Nat.pos_pow_of_pos _ (by norm_num)
    rw [← hk, Nat.mul_add_div hpow, Nat.div_eq_of_lt hj]
    omega
  exact getD_snoc_ne L v _ hkne

theorem nodeVal_ne_zero (pos : Nat → Nat → Nat) (hpos : ∀ a b, pos a b ≠ 0)
    (L : List Nat) (l i : Nat) (hl : 1 ≤ l) : nodeVal pos L l i ≠ 0 := by
  cases l with
  | zero => omega
  | succ l =>
    rw [nodeVal]
    exact hpos _ _

theorem nodeVal_succ_eq (pos : Nat → Nat → Nat) (hpos : ∀ a b, pos a b ≠ 0)
    (L : List Nat) (l i : Nat) :
    nodeVal pos L (l + 1) i =
      pos (nodeVal pos L l (2 * i)) (nodeVal pos L l (2 * i + 1)) := by
  rw [nodeVal]
  congr 1
  by_cases hz : nodeVal pos L l (2 * i + 1) ≠ 0
  · rw [if_pos hz]
  · rw [if_neg hz]
    push_neg at hz
    cases l with
    | zero =>
      rw [zeroSub, if_pos rfl, hz]
    | succ l =>
      exact absurd hz (nodeVal_ne_zero pos hpos L _ _ (by omega))

theorem updatePathLoop_frame (pos : Nat → Nat → Nat) (h : Nat) :
    ∀ (fuel level cur levelOffset : Nat) (a : Arr) (x : Nat),
      x < levelOffset + 2 ^ (h - level) →
      updatePathLoop pos h fuel level cur levelOffset a x = a x := by
  intro fuel
  induction fuel with
  | zero =>
    intro level cur levelOffset a x _
    rw [updatePathLoop]
  | succ fuel ih =>
    intro level cur levelOffset a x hx
    rw [updatePathLoop]
    rw [ih (level + 1) (cur / 2) (levelOffset + 2 ^ (h - level)) _ x
      (by have hp : 0 < 2 ^ (h - (level + 1)) := Nat.pos_pow_of_pos _ (by norm_num); omega)]
    rw [wr, if_neg (by omega)]

theorem insertLeavesLoop_frame (pos : Nat → Nat → Nat) (h : Nat) (newLeaves : List Nat) :
    ∀ (fuel i : Nat) (a : Arr) (x : Nat), x < i → x < 2 ^ h →
      insertLeavesLoop pos h newLeaves i fuel a x = a x := by
  intro fuel
  induction fuel with
  | zero =>
    intro i a x _ _
    rw [insertLeavesLoop]
  | succ fuel ih =>
    intro i a x hxi hxh
    rw [insertLeavesLoop]
    rw [ih (i + 1) _ x (by omega) hxh]
    rw [updatePathLoop_frame pos h h 0 i 0 _ x (by simpa using hxh)]
    rw [wr, if_neg (by omega)]

theorem updatePathLoop_spec (pos : Nat → Nat → Nat) (hpos : ∀ a b, pos a b ≠ 0)
    (h : Nat) (L : List Nat) (v : Nat) (hp : L.length < 2 ^ h) :
    ∀ (fuel level : Nat) (a : Arr),
      level + fuel = h →
      (∀ l i, l ≤ level → i < 2 ^ (h - l) →
        a (off h l + i) = nodeVal pos (L ++ [v]) l i) →
      (∀ l i, level < l → l ≤ h → i < 2 ^ (h - l) →
        a (off h l + i) = nodeVal pos L l i) →
      ∀ l i, l ≤ h → i < 2 ^ (h - l) →
        updatePathLoop pos h fuel level (L.length / 2 ^ level) (off h level) a
            (off h l + i) =
          nodeVal pos (L ++ [v]) l i := by
  intro fuel
  induction fuel with
  | zero =>
    intro level a hlf hyp1 _ l i hl hi
    rw [updatePathLoop]
    exact hyp1 l i (by omega) hi
  | succ fuel ih =>
    intro level a hlf hyp1 hyp2 l i hl hi
    have hlev : level < h := by omega
    generalize hcurdef : L.length / 2 ^ level = cur
    have hcur : cur < 2 ^ (h - level) := by
      rw [← hcurdef]
      apply Nat.div_lt_of_lt_mul
      calc L.length < 2 ^ h := hp
        _ = 2 ^ level * 2 ^ (h - level) := by rw [← pow_add]; congr 1; omega
    have hcnt2 : 2 ^ (h - level) = 2 * 2 ^ (h - (level + 1)) := by
      rw [show h - level = (h - (level + 1)) + 1 from by omega]
      ring
    have hcur2 : cur / 2 = L.length / 2 ^ (level + 1) := by
      rw [← hcurdef, Nat.div_div_eq_div_mul, ← pow_succ]
    have hM0 : ∀ i', i' < 2 ^ (h - level) →
        a (off h level + i') = nodeVal pos (L ++ [v]) level i' :=
      fun i' hi' => hyp1 level i' (le_refl level) hi'
    have hstep : updatePathLoop pos h (fuel + 1) level cur (off h level) a =
        updatePathLoop pos h fuel (level + 1) (cur / 2) (off h (level + 1))
          (wr a (off h (level + 1) + cur / 2)
            (nodeVal pos (L ++ [v]) (level + 1) (cur / 2))) := by
      rcases Nat.mod_two_eq_zero_or_one cur with heven | hodd
      · have hne1 : ¬(cur % 2 = 1) := by omega
        simp only [updatePathLoop]
        simp only [if_neg hne1]
        rw [off_succ_eq]
        have hc1 : cur + 1 < 2 ^ (h - level) := by omega
        rw [hM0 cur hcur, hM0 (cur + 1) hc1]
        conv_rhs => rw [nodeVal]
        have h2c : 2 * (cur / 2) = cur := by omega
        have h2c1 : 2 * (cur / 2) + 1 = cur + 1 := by omega
        rw [h2c1, h2c]
        have hif : (if cur + 1 < 2 ^ (h - level) ∧
              nodeVal pos (L ++ [v]) level (cur + 1) ≠ 0 then
            nodeVal pos (L ++ [v]) level (cur + 1)
          else zeroSub pos level) =
            (if nodeVal pos (L ++ [v]) level (cur + 1) ≠ 0 then
              nodeVal pos (L ++ [v]) level (cur + 1)
            else zeroSub pos level) := by
          by_cases hz : nodeVal pos (L ++ [v]) level (cur + 1) ≠ 0
          · rw [if_pos ⟨hc1, hz⟩, if_pos hz]
          · rw [if_neg (fun hcc => hz hcc.2), if_neg hz]
        rw [hif]
      · simp only [updatePathLoop]
        simp only [if_pos hodd]
        rw [off_succ_eq]
        have hc1 : cur - 1 < 2 ^ (h - level) := by omega
        rw [hM0 (cur - 1) hc1, hM0 cur hcur]
        rw [nodeVal_succ_eq pos hpos]
        have h2c : 2 * (cur / 2) = cur - 1 := by omega
        have h2c1 : 2 * (cur / 2) + 1 = cur := by omega
        rw [h2c1, h2c]
    rw [hstep]
    have hcurhalf : cur / 2 < 2 ^ (h - (level + 1)) := by
      have h1 : cur < 2 * 2 ^ (h - (level + 1)) := by
        rw [← hcnt2]
        exact hcur
      omega
    have hyp1' : ∀ l' i', l' ≤ level + 1 → i' < 2 ^ (h - l') →
        wr a (off h (level + 1) + cur / 2) (nodeVal pos (L ++ [v]) (level + 1) (cur / 2))
            (off h l' + i') =
          nodeVal pos (L ++ [v]) l' i' := by
      intro l' i' hl' hi'
      rcases Nat.lt_or_ge l' (level + 1) with hlt | hge
      · have haddr : off h l' + i' < off h (level + 1) := off_block_lt hlt hi'
        have hge2 : off h (level + 1) ≤ off h (level + 1) + cur / 2 := Nat.le_add_right _ _
        rw [wr, if_neg (by omega)]
        exact hyp1 l' i' (by omega) hi'
      · have hl'eq : l' = level + 1 := by omega
        subst hl'eq
        by_cases hieq : i' = cur / 2
        · subst hieq
          rw [wr, if_pos rfl]
        · rw [wr, if_neg (fun hcon => hieq (Nat.add_left_cancel hcon))]
          rw [hyp2 (level + 1) i' (by omega) (by omega) hi']
          have hne' : i' ≠ L.length / 2 ^ (level + 1) := by
            rw [← hcur2]
            exact hieq
          rw [nodeVal_snoc_off_path pos L v (level + 1) i' hne']
    have hyp2' : ∀ l' i', level + 1 < l' → l' ≤ h → i' < 2 ^ (h - l') →
        wr a (off h (level + 1) + cur / 2) (nodeVal pos (L ++ [v]) (level + 1) (cur / 2))
            (off h l' + i') =
          nodeVal pos L l' i' := by
      intro l' i' hgt hle hi'
      have h1 : off h (level + 1) + cur / 2 < off h (level + 1 + 1) :=
        off_add_lt_succ h (level + 1) (cur / 2) hcurhalf
      have h2 : off h (level + 1 + 1) ≤ off h l' := off_le_of_le h (by omega)
      rw [wr, if_neg (by omega)]
      exact hyp2 l' i' (by omega) hle hi'
    have hihres := ih (level + 1)
      (wr a (off h (level + 1) + cur / 2) (nodeVal pos (L ++ [v]) (level + 1) (cur / 2)))
      (by omega) hyp1' hyp2' l i hl hi
    rw [← hcur2] at hihres
    exact hihres

theorem buildTree_some (pos : Nat → Nat → Nat) (h : Nat) (leaves : List Nat)
    (hlen : leaves.length ≤ 2 ^ h) :
    buildTree pos h leaves =
      some ⟨leaves, buildArr pos h leaves, buildArr pos h leaves (treeSize h - 1)⟩ ∧
    Models pos h ⟨leaves, buildArr pos h leaves, buildArr pos h leaves (treeSize h - 1)⟩ := by
  constructor
  · rw [buildTree, if_neg (by omega)]
  · refine ⟨hlen, buildArr_spec pos h leaves hlen, ?_⟩
    show buildArr pos h leaves (treeSize h - 1) = nodeVal pos leaves h 0
    rw [← off_top h]
    have hres := buildArr_spec pos h leaves hlen h 0 (le_refl h)
      (by rw [Nat.sub_self]; norm_num)
    simpa using hres

theorem updateTree_snoc (pos : Nat → Nat → Nat) (hpos : ∀ a b, pos a b ≠ 0)
    (h : Nat) (st : TreeState) (v : Nat)
    (hm : Models pos h st) (hcap : st.leaves.length + 1 ≤ 2 ^ h) :
    ∃ st', updateTree pos h st (st.leaves ++ [v]) = some st' ∧
      st'.leaves = st.leaves ++ [v] ∧ Models pos h st' ∧
      (∀ x, x < st.leaves.length → st'.tree x = st.tree x) := by
  have hlenM : (st.leaves ++ [v]).length = st.leaves.length + 1 := by simp
  have hp : st.leaves.length < 2 ^ h := by omega
  have harr : insertLeavesLoop pos h (st.leaves ++ [v]) st.leaves.length
      ((st.leaves ++ [v]).length - st.leaves.length) st.tree =
      updatePathLoop pos h h 0 st.leaves.length 0
        (wr st.tree st.leaves.length ((st.leaves ++ [v]).getD st.leaves.length 0)) := by
    rw [hlenM, Nat.add_sub_cancel_left]
    rw [insertLeavesLoop, insertLeavesLoop]
  have hgetDv : (st.leaves ++ [v]).getD st.leaves.length 0 = v := getD_snoc_last _ _
  have hyp1 : ∀ l i, l ≤ 0 → i < 2 ^ (h - l) →
      wr st.tree st.leaves.length v (off h l + i) =
        nodeVal pos (st.leaves ++ [v]) l i := by
    intro l i hl hi
    have hl0 : l = 0 := by omega
    subst hl0
    have hoff0 : off h 0 + i = i := by
      show 0 + i = i
      omega
    rw [hoff0, wr, nodeVal]
    by_cases hip : i = st.leaves.length
    · subst hip
      rw [if_pos rfl, getD_snoc_last]
    · rw [if_neg hip]
      have ht := hm.2.1 0 i (by omega) hi
      rw [show st.tree (off h 0 + i) = st.tree i from by rw [hoff0]] at ht
      rw [ht, nodeVal]
      rw [getD_snoc_ne _ _ _ hip]
  have hyp2 : ∀ l i, 0 < l → l ≤ h → i < 2 ^ (h - l) →
      wr st.tree st.leaves.length v (off h l + i) = nodeVal pos st.leaves l i := by
    intro l i hl hlh hi
    have hoff1 : 2 ^ h ≤ off h l := by
      have h1 : off h 1 = 2 ^ h := by
        rw [off_succ_eq]
        show 0 + 2 ^ (h - 0) = 2 ^ h
        rw [Nat.sub_zero, Nat.zero_add]
      rw [← h1]
      exact off_le_of_le h hl
    rw [wr, if_neg (by omega)]
    exact hm.2.1 l i hlh hi
  have hspec := updatePathLoop_spec pos hpos h st.leaves v hp h 0
    (wr st.tree st.leaves.length v) (by omega) hyp1 hyp2
  have hdiv1 : st.leaves.length / 2 ^ 0 = st.leaves.length := by
    rw [pow_zero, Nat.div_one]
  have hoffz : off h 0 = 0 := rfl
  refine ⟨⟨st.leaves ++ [v],
    insertLeavesLoop pos h (st.leaves ++ [v]) st.leaves.length
      ((st.leaves ++ [v]).length - st.leaves.length) st.tree,
    insertLeavesLoop pos h (st.leaves ++ [v]) st.leaves.length
      ((st.leaves ++ [v]).length - st.leaves.length) st.tree (treeSize h - 1)⟩,
    ?_, rfl, ⟨by simp; omega, ?_, ?_⟩, ?_⟩
  · rw [updateTree, if_neg (by omega), if_neg (by omega), if_neg (by omega)]
  · intro l i hlh hi
    show insertLeavesLoop pos h (st.leaves ++ [v]) st.leaves.length
        ((st.leaves ++ [v]).length - st.leaves.length) st.tree (off h l + i) =
      nodeVal pos (st.leaves ++ [v]) l i
    rw [harr, hgetDv]
    have := hspec l i hlh hi
    rw [hdiv1, hoffz] at this
    exact this
  · show insertLeavesLoop pos h (st.leaves ++ [v]) st.leaves.length
        ((st.leaves ++ [v]).length - st.leaves.length) st.tree (treeSize h - 1) =
      nodeVal pos (st.leaves ++ [v]) h 0
    rw [harr, hgetDv, ← off_top h]
    have := hspec h 0 (le_refl h) (by rw [Nat.sub_self]; norm_num)
    rw [hdiv1, hoffz] at this
    simpa using this
  · intro x hx
    show insertLeavesLoop pos h (st.leaves ++ [v]) st.leaves.length
        ((st.leaves ++ [v]).length - st.leaves.length) st.tree x = st.tree x
    rw [insertLeavesLoop_frame pos h (st.leaves ++ [v]) _ _ _ x hx (by omega)]

theorem iterUpdateAux_models (pos : Nat → Nat → Nat) (hpos : ∀ a b, pos a b ≠ 0)
    (h : Nat) (leaves : List Nat) (hlen : leaves.length ≤ 2 ^ h) :
    ∀ k, k ≤ leaves.length →
      ∃ st, iterUpdateAux pos h leaves k = some st ∧ st.leaves = leaves.take k ∧
        Models pos h st := by
  intro k
  induction k with
  | zero =>
    intro _
    obtain ⟨hbt, hmod⟩ := buildTree_some pos h [] (by simp)
    exact ⟨_, hbt, by simp, hmod⟩
  | succ k ih =>
    intro hk1
    obtain ⟨st, hiter, hleaves, hmod⟩ := ih (by omega)
    have hklen : k < leaves.length := by omega
    have hstlen : st.leaves.length = k := by
      rw [hleaves, List.length_take]
      omega
    have htake : leaves.take (k + 1) = st.leaves ++ [leaves.getD k 0] := by
      rw [hleaves, List.take_succ, List.getElem?_eq_getElem hklen]
      simp [List.getD_eq_getElem?_getD, List.getElem?_eq_getElem hklen]
    obtain ⟨st', hupd, hleaves', hmod', _⟩ :=
      updateTree_snoc pos hpos h st (leaves.getD k 0) hmod (by omega)
    refine ⟨st', ?_, ?_, hmod'⟩
    · rw [iterUpdateAux, hiter, htake]
      exact hupd
    · rw [hleaves', htake]

/-- C3.  For any leaf list with at most `2^20` entries, building the tree in
one shot and inserting the leaves one at a time through the incremental
update path, starting from the empty tree, produce the same root (the
Poseidon hash is abstract, assumed to never return the field zero). -/
theorem c3_build_update_equiv (pos : Nat → Nat → Nat) (leaves : List Nat)
    (hpos : ∀ a b, pos a b ≠ 0) (hlen : leaves.length ≤ LEAVES_CAPACITY) :
    ∃ stIter stBuild,
      iterUpdate pos TREE_HEIGHT leaves = some stIter ∧
      buildTree pos TREE_HEIGHT leaves = some stBuild ∧
      stIter.root = stBuild.root := by
  have hlen' : leaves.length ≤ 2 ^ TREE_HEIGHT := hlen
  obtain ⟨st, hiter, hleaves, hmod⟩ :=
    iterUpdateAux_models pos hpos TREE_HEIGHT leaves hlen' leaves.length (le_refl _)
  obtain ⟨hbt, hmodB⟩ := buildTree_some pos TREE_HEIGHT leaves hlen'
  refine ⟨st, _, hiter, hbt, ?_⟩
  rw [hmod.2.2, hmodB.2.2]
  rw [hleaves, List.take_length]

/-- C3 witness: the equivalence theorem applied at a concrete hash and a
three-leaf list. -/
theorem c3_build_update_equiv_witness :
    (∀ a b : Nat, a + b + 1 ≠ 0) ∧
    ∃ stIter stBuild,
      iterUpdate (fun a b => a + b + 1) TREE_HEIGHT [5, 6, 7] = some stIter ∧
      buildTree (fun a b => a + b + 1) TREE_HEIGHT [5, 6, 7] = some stBuild ∧
      stIter.root = stBuild.root :=
  ⟨fun a b => Nat.succ_ne_zero (a + b),
    c3_build_update_equiv (fun a b => a + b + 1) [5, 6, 7]
      (fun a b => Nat.succ_ne_zero (a + b))
      (by norm_num [LEAVES_CAPACITY, TREE_HEIGHT])⟩

theorem getMerklePathLoop_fold (pos : Nat → Nat → Nat) (hpos : ∀ a b, pos a b ≠ 0)
    (h : Nat) (leaves : List Nat) (a : Arr)
    (hspec : ∀ l i, l ≤ h → i < 2 ^ (h - l) → a (off h l + i) = nodeVal pos leaves l i) :
    ∀ (fuel level cur : Nat),
      level + fuel = h → cur < 2 ^ (h - level) →
      foldPath pos (nodeVal pos leaves level cur)
        ((getMerklePathLoop pos h a fuel level cur (off h level)).1.zip
          (getMerklePathLoop pos h a fuel level cur (off h level)).2) =
      nodeVal pos leaves h 0 := by
  intro fuel
  induction fuel with
  | zero =>
    intro level cur hlf hcur
    have hsub : h - level = 0 := by omega
    rw [hsub] at hcur
    have hc : cur = 0 := by
      have hone : (2 : Nat) ^ 0 = 1 := by norm_num
      omega
    subst hc
    rw [getMerklePathLoop, show level = h from by omega]
    rfl
  | succ fuel ih =>
    intro level cur hlf hcur
    have hlev : level < h := by omega
    have hcnt2 : 2 ^ (h - level) = 2 * 2 ^ (h - (level + 1)) := by
      rw [show h - level = (h - (level + 1)) + 1 from by omega]
      ring
    have hcurhalf : cur / 2 < 2 ^ (h - (level + 1)) := by omega
    have hoffnext : off h level + 2 ^ (h - level) = off h (level + 1) :=
      (off_succ_eq h level).symm
    have hend := ih (level + 1) (cur / 2) (by omega) hcurhalf
    rcases Nat.mod_two_eq_zero_or_one cur with heven | hodd
    · have hne1 : ¬(cur % 2 = 1) := by omega
      have hc1 : cur + 1 < 2 ^ (h - level) := by omega
      have hsib : (if level = 0 then
            (if cur + 1 < 2 ^ h then a (cur + 1) else 0)
          else if off h level ≤ off h level + (cur + 1) ∧
              off h level + (cur + 1) < off h level + 2 ^ (h - level) then
            a (off h level + (cur + 1))
          else zeroHash pos (level - 1)) = nodeVal pos leaves level (cur + 1) := by
        by_cases hl0 : level = 0
        · subst hl0
          rw [if_pos rfl]
          have hb : cur + 1 < 2 ^ h := by
            have : h - 0 = h := by omega
            rw [this] at hc1
            exact hc1
          rw [if_pos hb]
          have hv := hspec 0 (cur + 1) (by omega) hc1
          have hoffz : off h 0 = 0 := rfl
          rw [hoffz, Nat.zero_add] at hv
          exact hv
        · rw [if_neg hl0, if_pos ⟨Nat.le_add_right _ _, by omega⟩]
          exact hspec level (cur + 1) (by omega) hc1
      have hacc : pos (nodeVal pos leaves level cur) (nodeVal pos leaves level (cur + 1)) =
          nodeVal pos leaves (level + 1) (cur / 2) := by
        rw [nodeVal_succ_eq pos hpos]
        rw [show 2 * (cur / 2) + 1 = cur + 1 from by omega,
          show 2 * (cur / 2) = cur from by omega]
      simp only [getMerklePathLoop]
      simp only [if_neg hne1]
      rw [hsib]
      simp only [List.zip_cons_cons]
      rw [foldPath]
      rw [if_neg (by norm_num)]
      rw [hacc, hoffnext]
      exact hend
    · have hc1 : cur - 1 < 2 ^ (h - level) := by omega
      have hsib : (if level = 0 then
            (if cur - 1 < 2 ^ h then a (cur - 1) else 0)
          else if off h level ≤ off h level + (cur - 1) ∧
              off h level + (cur - 1) < off h level + 2 ^ (h - level) then
            a (off h level + (cur - 1))
          else zeroHash pos (level - 1)) = nodeVal pos leaves level (cur - 1) := by
        by_cases hl0 : level = 0
        · subst hl0
          rw [if_pos rfl]
          have hb : cur - 1 < 2 ^ h := by
            have hh : h - 0 = h := by omega
            rw [hh] at hc1
            exact hc1
          rw [if_pos hb]
          have hv := hspec 0 (cur - 1) (by omega) hc1
          have hoffz : off h 0 = 0 := rfl
          rw [hoffz, Nat.zero_add] at hv
          exact hv
        · rw [if_neg hl0, if_pos ⟨Nat.le_add_right _ _, by omega⟩]
          exact hspec level (cur - 1) (by omega) hc1
      have hacc : pos (nodeVal pos leaves level (cur - 1)) (nodeVal pos leaves level cur) =
          nodeVal pos leaves (level + 1) (cur / 2) := by
        rw [nodeVal_succ_eq pos hpos]
        rw [show 2 * (cur / 2) + 1 = cur from by omega,
          show 2 * (cur / 2) = cur - 1 from by omega]
      simp only [getMerklePathLoop]
      simp only [if_pos hodd]
      rw [hsib]
      simp only [List.zip_cons_cons]
      rw [foldPath]
      rw [if_pos rfl]
      rw [hacc, hoffnext]
      exact hend

/-- C4.  For every built tree with `n` leaves and every `i < n`, the
inclusion path returned by `getMerklePath` is sound: folding the returned
siblings with the returned direction bits, starting from `leaves[i]` and
hashing with the pair Poseidon at each of the 20 levels, reproduces the
returned root, and that root equals the engine's stored root (abstract
Poseidon, assumed never to return the field zero). -/
theorem c4_path_soundness (pos : Nat → Nat → Nat) (leaves : List Nat) (i : Nat)
    (hpos : ∀ a b, pos a b ≠ 0) (hlen : leaves.length ≤ LEAVES_CAPACITY)
    (hi : i < leaves.length) :
    ∃ st, buildTree pos TREE_HEIGHT leaves = some st ∧
      foldPath pos (leaves.getD i 0)
        ((getMerklePath pos TREE_HEIGHT st i).1.zip
          (getMerklePath pos TREE_HEIGHT st i).2.1) =
        (getMerklePath pos TREE_HEIGHT st i).2.2 ∧
      (getMerklePath pos TREE_HEIGHT st i).2.2 = st.root := by
  have hlen' : leaves.length ≤ 2 ^ TREE_HEIGHT := hlen
  obtain ⟨hbt, hmod⟩ := buildTree_some pos TREE_HEIGHT leaves hlen'
  refine ⟨_, hbt, ?_, ?_⟩
  · have hroot : (getMerklePath pos TREE_HEIGHT
        ⟨leaves, buildArr pos TREE_HEIGHT leaves,
          buildArr pos TREE_HEIGHT leaves (treeSize TREE_HEIGHT - 1)⟩ i).2.2 =
        nodeVal pos leaves TREE_HEIGHT 0 := by
      show (if buildArr pos TREE_HEIGHT leaves (treeSize TREE_HEIGHT - 1) = 0 then
          zeroHash pos (TREE_HEIGHT - 1)
        else buildArr pos TREE_HEIGHT leaves (treeSize TREE_HEIGHT - 1)) =
        nodeVal pos leaves TREE_HEIGHT 0
      have hslot : buildArr pos TREE_HEIGHT leaves (treeSize TREE_HEIGHT - 1) =
          nodeVal pos leaves TREE_HEIGHT 0 := by
        rw [← off_top TREE_HEIGHT]
        have hb := buildArr_spec pos TREE_HEIGHT leaves hlen' TREE_HEIGHT 0 (le_refl _)
          (by rw [Nat.sub_self]; norm_num)
        simpa using hb
      rw [hslot, if_neg (nodeVal_ne_zero pos hpos leaves TREE_HEIGHT 0 (by norm_num [TREE_HEIGHT]))]
    rw [hroot]
    have hi' : i < 2 ^ (TREE_HEIGHT - 0) := by
      have : (TREE_HEIGHT : Nat) - 0 = TREE_HEIGHT := by omega
      rw [this]
      exact lt_of_lt_of_le hi hlen'
    have hfold := getMerklePathLoop_fold pos hpos TREE_HEIGHT leaves
      (buildArr pos TREE_HEIGHT leaves) (buildArr_spec pos TREE_HEIGHT leaves hlen')
      TREE_HEIGHT 0 i (by omega) hi'
    have hoffz : off TREE_HEIGHT 0 = 0 := rfl
    rw [hoffz] at hfold
    have hstart : nodeVal pos leaves 0 i = leaves.getD i 0 := rfl
    rw [hstart] at hfold
    exact hfold
  · show (if buildArr pos TREE_HEIGHT leaves (treeSize TREE_HEIGHT - 1) = 0 then
        zeroHash pos (TREE_HEIGHT - 1)
      else buildArr pos TREE_HEIGHT leaves (treeSize TREE_HEIGHT - 1)) =
      buildArr pos TREE_HEIGHT leaves (treeSize TREE_HEIGHT - 1)
    have hslot : buildArr pos TREE_HEIGHT leaves (treeSize TREE_HEIGHT - 1) =
        nodeVal pos leaves TREE_HEIGHT 0 := by
      rw [← off_top TREE_HEIGHT]
      have hb := buildArr_spec pos TREE_HEIGHT leaves hlen' TREE_HEIGHT 0 (le_refl _)
        (by rw [Nat.sub_self]; norm_num)
      simpa using hb
    rw [hslot, if_neg (nodeVal_ne_zero pos hpos leaves TREE_HEIGHT 0 (by norm_num [TREE_HEIGHT]))]

/-- C4 witness: path soundness applied at a concrete hash, two leaves and
index 0. -/
theorem c4_path_soundness_witness :
    ∃ st, buildTree (fun a b => a + b + 1) TREE_HEIGHT [5, 6] = some st ∧
      foldPath (fun a b => a + b + 1) (([5, 6] : List Nat).getD 0 0)
        ((getMerklePath (fun a b => a + b + 1) TREE_HEIGHT st 0).1.zip
          (getMerklePath (fun a b => a + b + 1) TREE_HEIGHT st 0).2.1) =
        (getMerklePath (fun a b => a + b + 1) TREE_HEIGHT st 0).2.2 ∧
      (getMerklePath (fun a b => a + b + 1) TREE_HEIGHT st 0).2.2 = st.root :=
  c4_path_soundness (fun a b => a + b + 1) [5, 6] 0
    (fun a b => Nat.succ_ne_zero (a + b))
    (by norm_num [LEAVES_CAPACITY, TREE_HEIGHT]) (by norm_num)

/-- C5 (amended).  `updateTree` decides between rebuild and incremental
update on leaf counts alone and never compares leaf values: a shorter
caller list triggers a full rebuild, an equal-length list returns the
stored tree unchanged, and a longer list (within capacity) is applied
incrementally — the stored level-0 slots below the old leaf count are
carried over unchanged, even when the caller's prefix disagrees with the
stored one. -/
theorem c5_update_no_value_check (pos : Nat → Nat → Nat) (st : TreeState) (M : List Nat)
    (hcap : st.leaves.length ≤ LEAVES_CAPACITY) :
    (M.length < st.leaves.length →
      updateTree pos TREE_HEIGHT st M = buildTree pos TREE_HEIGHT M) ∧
    (M.length = st.leaves.length → updateTree pos TREE_HEIGHT st M = some st) ∧
    (st.leaves.length < M.length → M.length ≤ LEAVES_CAPACITY →
      ∃ st', updateTree pos TREE_HEIGHT st M = some st' ∧ st'.leaves = M ∧
        ∀ x, x < st.leaves.length → st'.tree x = st.tree x) := by
  have hc : LEAVES_CAPACITY = 2 ^ TREE_HEIGHT := rfl
  refine ⟨?_, ?_, ?_⟩
  · intro hlt
    rw [updateTree, if_neg (by omega), if_pos hlt]
  · intro heq
    rw [updateTree, if_pos heq]
  · intro hgt hle
    refine ⟨⟨M,
      insertLeavesLoop pos TREE_HEIGHT M st.leaves.length
        (M.length - st.leaves.length) st.tree,
      insertLeavesLoop pos TREE_HEIGHT M st.leaves.length
        (M.length - st.leaves.length) st.tree (treeSize TREE_HEIGHT - 1)⟩, ?_, rfl, ?_⟩
    · rw [updateTree, if_neg (by omega), if_neg (by omega), if_neg (by omega)]
    · intro x hx
      show insertLeavesLoop pos TREE_HEIGHT M st.leaves.length
          (M.length - st.leaves.length) st.tree x = st.tree x
      exact insertLeavesLoop_frame pos TREE_HEIGHT M _ _ st.tree x hx (by omega)

set_option maxRecDepth 4096 in
/-- C5 counterexample.  With one stored leaf `[1]` and caller leaves
`[2, 3]` — a disagreeing prefix — the engine does not rebuild: the update
keeps the stored leaf `1` in slot 0 (while recording `leaves = [2, 3]`),
whereas the full rebuild from `[2, 3]` puts `2` there, so the updated state
differs from the rebuilt state. -/
theorem c5_update_counterexample :
    ∃ st1 st1' st2 : TreeState,
      buildTree (fun a b => a + b + 1) TREE_HEIGHT [1] = some st1 ∧
      updateTree (fun a b => a + b + 1) TREE_HEIGHT st1 [2, 3] = some st1' ∧
      buildTree (fun a b => a + b + 1) TREE_HEIGHT [2, 3] = some st2 ∧
      st1'.leaves = [2, 3] ∧ st1'.tree 0 = 1 ∧ st2.tree 0 = 2 ∧ st1' ≠ st2 := by
  have hlen1 : ([1] : List Nat).length ≤ 2 ^ TREE_HEIGHT := by
    norm_num [TREE_HEIGHT]
  have hlen2 : ([2, 3] : List Nat).length ≤ 2 ^ TREE_HEIGHT := by
    norm_num [TREE_HEIGHT]
  obtain ⟨hbt1, hmod1⟩ := buildTree_some (fun a b => a + b + 1) TREE_HEIGHT [1] hlen1
  obtain ⟨hbt2, hmod2⟩ := buildTree_some (fun a b => a + b + 1) TREE_HEIGHT [2, 3] hlen2
  have htree1 : buildArr (fun a b => a + b + 1) TREE_HEIGHT [1] 0 = 1 := by
    have hb := buildArr_spec (fun a b => a + b + 1) TREE_HEIGHT [1] hlen1 0 0
      (by omega) (by have := Nat.pos_pow_of_pos (TREE_HEIGHT - 0) (show 0 < 2 by norm_num); omega)
    simpa using hb
  have htree2 : buildArr (fun a b => a + b + 1) TREE_HEIGHT [2, 3] 0 = 2 := by
    have hb := buildArr_spec (fun a b => a + b + 1) TREE_HEIGHT [2, 3] hlen2 0 0
      (by omega) (by have := Nat.pos_pow_of_pos (TREE_HEIGHT - 0) (show 0 < 2 by norm_num); omega)
    simpa using hb
  refine ⟨⟨[1], buildArr (fun a b => a + b + 1) TREE_HEIGHT [1],
      buildArr (fun a b => a + b + 1) TREE_HEIGHT [1] (treeSize TREE_HEIGHT - 1)⟩,
    ⟨[2, 3],
      insertLeavesLoop (fun a b => a + b + 1) TREE_HEIGHT [2, 3] 1 1
        (buildArr (fun a b => a + b + 1) TREE_HEIGHT [1]),
      insertLeavesLoop (fun a b => a + b + 1) TREE_HEIGHT [2, 3] 1 1
        (buildArr (fun a b => a + b + 1) TREE_HEIGHT [1]) (treeSize TREE_HEIGHT - 1)⟩,
    ⟨[2, 3], buildArr (fun a b => a + b + 1) TREE_HEIGHT [2, 3],
      buildArr (fun a b => a + b + 1) TREE_HEIGHT [2, 3] (treeSize TREE_HEIGHT - 1)⟩,
    hbt1, ?_, hbt2, ?_, ?_, ?_, ?_⟩
  · rw [updateTree]
    simp only [TreeState.leaves_mk, TreeState.tree_mk]
    rw [if_neg (by norm_num), if_neg (by norm_num), if_neg (by norm_num [TREE_HEIGHT])]
    norm_num
  · rw [TreeState.leaves_mk]
  · show (⟨[2, 3],
        insertLeavesLoop (fun a b => a + b + 1) TREE_HEIGHT [2, 3] 1 1
          (buildArr (fun a b => a + b + 1) TREE_HEIGHT [1]),
        insertLeavesLoop (fun a b => a + b + 1) TREE_HEIGHT [2, 3] 1 1
          (buildArr (fun a b => a + b + 1) TREE_HEIGHT [1])
          (treeSize TREE_HEIGHT - 1)⟩ : TreeState).tree 0 = 1
    rw [TreeState.tree_mk]
    rw [insertLeavesLoop_frame (fun a b => a + b + 1) TREE_HEIGHT [2, 3] 1 1 _ 0
      (by norm_num) (by norm_num [TREE_HEIGHT])]
    exact htree1
  · rw [TreeState.tree_mk]
    exact htree2
  · intro hcon
    have h12 : (1 : Nat) = 2 := by
      have hx := congrArg (fun s : TreeState => s.tree 0) hcon
      simp only [TreeState.tree_mk] at hx
      rw [insertLeavesLoop_frame (fun a b => a + b + 1) TREE_HEIGHT [2, 3] 1 1 _ 0
        (by norm_num) (by norm_num [TREE_HEIGHT]), htree1, htree2] at hx
      exact hx
    omega

/-- C5 witness: the amended theorem applied to an equal-length update,
which returns the stored state unchanged. -/
theorem c5_update_no_value_check_witness :
    updateTree (fun a b => a + b + 1) TREE_HEIGHT ⟨[9], fun _ => 0, 0⟩ [4] =
      some ⟨[9], fun _ => 0, 0⟩ :=
  (c5_update_no_value_check (fun a b => a + b + 1) ⟨[9], fun _ => 0, 0⟩ [4]
    (by norm_num [LEAVES_CAPACITY, TREE_HEIGHT])).2.1 rfl

end Cipher
